import Mathlib

/-!
Verification of the metrics query engine of the vibe-personal-dashboard-backend
repository (Go).  The Go source is shallowly embedded: pure functions become
Lean functions, fallible functions return Except, the database is an oracle
function, and the interface-valued results of the Go code become a closed
inductive value type.  Go maps are modelled as lookup functions or association
lists; goroutine completion order in GetMetrics is modelled by an explicit
schedule (a permutation of the slot indices); gateway invocations are made
observable as an explicit call log.  Machine integers are modelled as Int with
explicit range checks where the Go code performs them (strconv); float64
values are modelled by the exact rational value of the parsed literal, with
IEEE-754 binary64 rounding abstracted (no claim compares two differently
written floats, so the abstraction is sound for the stated properties).
-/

-- Decidable equality for Except values, used to evaluate concrete runs of
-- the embedded functions inside proofs.
deriving instance DecidableEq for Except

-- The rational arithmetic of core is marked irreducible, which prevents
-- kernel evaluation of concrete parses; restore semireducibility locally.
attribute [local semireducible] Rat.add Rat.mul Rat.inv Rat.sub

/-! ## Character helpers -/

/-- Numeric value of a decimal digit character. -/
def digitVal (c : Char) : Nat := c.toNat - 48

/-- True for the hexadecimal letter digits a..f and A..F. -/
def isHexLetter (c : Char) : Bool := 'a' ≤ c.toLower && c.toLower ≤ 'f'

/-- Numeric value of a hexadecimal digit character. -/
def hexVal (c : Char) : Nat := if c.isDigit then c.toNat - 48 else c.toLower.toNat - 87

/-- Renders a string the way Go's fmt %q verb renders an ordinary string:
surrounded by double quotes.  Escaping of exotic characters is abstracted;
none of the strings appearing in the claims need escapes. -/
def goQuote (s : String) : String := "\"" ++ s ++ "\""

/-! ## strconv: integer parsing (strconv.ParseInt with base 10, bitSize 64) -/

/-- Error kinds of Go's strconv NumError: ErrSyntax or ErrRange. -/
inductive NumErr where
  | invalid
  | range
deriving DecidableEq

/-- Message of a Go strconv NumError, as produced by its Error method. -/
def numErrMsg (fn : String) (s : String) (e : NumErr) : String :=
  "strconv." ++ fn ++ ": parsing " ++ goQuote s ++ ": " ++
    (match e with
     | NumErr.invalid => "invalid syntax"
     | NumErr.range => "value out of range")

/-- Largest uint64 value, the maxVal of strconv.ParseUint for bitSize 64. -/
def maxUint64 : Nat := 2 ^ 64 - 1

/-- The cutoff of strconv.ParseUint for base 10: smallest number that, once
multiplied by 10, overflows uint64. -/
def uintCutoff : Nat := maxUint64 / 10 + 1

/-- Digit loop of strconv.ParseUint (base 10, bitSize 64): per character,
reject non-digits as a syntax error, then detect overflow against the cutoff
and maxVal exactly as the Go loop does. -/
def parseUintLoop : List Char → Nat → Except NumErr Nat
  | [], n => Except.ok n
  | c :: cs, n =>
    if c.isDigit then
      if uintCutoff ≤ n then Except.error NumErr.range
      else
        let n1 := n * 10 + digitVal c
        if maxUint64 < n1 then Except.error NumErr.range
        else parseUintLoop cs n1
    else Except.error NumErr.invalid

/-- strconv.ParseUint(s, 10, 64) on an already sign-stripped character list;
the empty string is a syntax error. -/
def goParseUint64 (cs : List Char) : Except NumErr Nat :=
  if cs.isEmpty then Except.error NumErr.invalid else parseUintLoop cs 0

/-- Strips one optional leading sign, returning whether it was a minus. -/
def stripIntSign : List Char → Bool × List Char
  | '+' :: r => (false, r)
  | '-' :: r => (true, r)
  | cs => (false, cs)

/-- strconv.ParseInt(s, 10, 64): optional sign, decimal digits, with the
signed 64-bit range checks of the Go source (un >= 1<<63 for positive,
un > 1<<63 for negative input is a range error).  Errors carry the message
of the corresponding NumError. -/
def goParseInt64 (s : String) : Except String Int :=
  let sd := stripIntSign s.toList
  match goParseUint64 sd.2 with
  | Except.error e => Except.error (numErrMsg "ParseInt" s e)
  | Except.ok un =>
    if !sd.1 && decide (2 ^ 63 ≤ un) then Except.error (numErrMsg "ParseInt" s NumErr.range)
    else if sd.1 && decide (2 ^ 63 < un) then Except.error (numErrMsg "ParseInt" s NumErr.range)
    else Except.ok (if sd.1 then -(un : Int) else (un : Int))

/-! ## strconv: float parsing (strconv.ParseFloat with bitSize 64)

The syntax accepted (specials, decimal and hexadecimal mantissas, exponents,
underscore separators, full-string consumption) follows the Go source of
strconv.  The numeric value of a well-formed finite literal is kept as the
exact rational value of the literal; the final binary64 rounding step is
abstracted.  Overflow (a value whose binary64 rounding would be infinite,
reported by Go as ErrRange) is detected exactly, on the exact value. -/

/-- Value domain of strconv.ParseFloat: a finite value (exact rational,
rounding abstracted), a signed infinity, or NaN. -/
inductive GoFloat where
  | finite (q : ℚ)
  | inf (neg : Bool)
  | nan
deriving DecidableEq

/-- State of the mantissa scan of strconv's readFloat. -/
structure MantissaState where
  sawdot : Bool := false
  sawdigits : Bool := false
  underscores : Bool := false
  ip : Nat := 0
  fp : Nat := 0
  fplen : Nat := 0
deriving DecidableEq

/-- Mantissa loop of strconv's readFloat: consumes digits (hex digits when
base is 16), at most one dot, and underscores (flagged for a later
validity check); stops at the first other character. -/
def scanMantissa (base : Nat) : List Char → MantissaState → MantissaState × List Char
  | [], st => (st, [])
  | c :: cs, st =>
    if c = '_' then scanMantissa base cs { st with underscores := true }
    else if c = '.' then
      if st.sawdot then (st, c :: cs)
      else scanMantissa base cs { st with sawdot := true }
    else if c.isDigit || (decide (base = 16) && isHexLetter c) then
      if st.sawdot then
        scanMantissa base cs
          { st with sawdigits := true, fp := st.fp * base + hexVal c, fplen := st.fplen + 1 }
      else
        scanMantissa base cs { st with sawdigits := true, ip := st.ip * base + hexVal c }
    else (st, c :: cs)

/-- Exponent digit loop of strconv's readFloat: decimal digits and
underscores.  The Go source caps the accumulated exponent at 10000 only to
avoid machine overflow; the exact value is kept here, which does not change
acceptance (a capped huge exponent still overflows or, with a zero mantissa,
still yields zero). -/
def scanExpDigits : List Char → Int → Bool → Int × Bool × List Char
  | [], e, u => (e, u, [])
  | c :: cs, e, u =>
    if c.isDigit then scanExpDigits cs (e * 10 + (digitVal c : Int)) u
    else if c = '_' then scanExpDigits cs e true
    else (e, u, c :: cs)

/-- Inner loop of strconv's underscoreOK: saw tracks the class of the last
character seen (the caret for the beginning, 0 for a digit or base prefix,
underscore, or bang for any other character). -/
def underscoreOKLoop (hex : Bool) (saw : Char) : List Char → Bool
  | [] => saw ≠ '_'
  | c :: cs =>
    if c.isDigit || (hex && isHexLetter c) then underscoreOKLoop hex '0' cs
    else if c = '_' then
      if saw = '0' then underscoreOKLoop hex '_' cs else false
    else if saw = '_' then false
    else underscoreOKLoop hex '!' cs

/-- strconv's underscoreOK: underscores may appear only between digits or
between a base prefix and a digit. -/
def underscoreOK (cs : List Char) : Bool :=
  let cs1 := match cs with
    | c :: r => if c = '+' || c = '-' then r else cs
    | [] => cs
  match cs1 with
  | '0' :: b :: rest =>
    if b.toLower = 'b' || b.toLower = 'o' || b.toLower = 'x' then
      underscoreOKLoop (b.toLower = 'x') '0' rest
    else underscoreOKLoop false '^' cs1
  | _ => underscoreOKLoop false '^' cs1

/-- Base of the exponent part: 2 for hexadecimal mantissas, 10 otherwise. -/
def expBase (base : Nat) : ℚ := if base = 16 then 2 else 10

/-- Binary exponentiation on rationals, fuelled by the exponent itself, so
that concrete powers reduce in logarithmic depth. -/
def ratPowAux : Nat → ℚ → Nat → ℚ
  | 0, _, _ => 1
  | fuel + 1, b, e =>
    if e = 0 then 1
    else if e % 2 = 1 then b * ratPowAux fuel (b * b) (e / 2)
    else ratPowAux fuel (b * b) (e / 2)

/-- Natural power on rationals by binary exponentiation. -/
def ratPowNat (b : ℚ) (e : Nat) : ℚ := ratPowAux e b e

/-- Integer power on rationals, written with division and binary natural
powers so that concrete values evaluate by kernel reduction (the field
inverse and the unary monoid power of ℚ do not, or only at small depth). -/
def ratPowInt (b : ℚ) (e : Int) : ℚ :=
  if 0 ≤ e then ratPowNat b e.toNat else 1 / ratPowNat b (-e).toNat

/-- Final underscore validity check of readFloat, applied to the whole
input when any underscore was seen. -/
def checkUnderscores (cs0 : List Char) (usc : Bool) (q : ℚ) : Option ℚ :=
  if usc && !underscoreOK cs0 then none else some q

/-- Hexadecimal prefix detection of strconv's readFloat: a 0x prefix (with
at least one character after it) selects base 16 and the binary exponent
letter p; otherwise base 10 and the letter e, scanning the whole input. -/
def goFloatPrefix (tail : List Char) : Nat × Char × List Char :=
  match tail with
  | '0' :: x :: c :: r => if x.toLower = 'x' then (16, 'p', c :: r) else (10, 'e', tail)
  | _ => (10, 'e', tail)

/-- strconv's readFloat, requiring full consumption of the input as
ParseFloat does: optional sign, optional hex prefix (only when at least one
character follows it), mantissa with at most one dot and at least one digit,
then a mandatory binary exponent for hex input or an optional decimal
exponent, whose first character after the optional sign must be a digit.
Returns the exact rational value of the literal. -/
def goReadFloat (cs0 : List Char) : Option ℚ :=
  let sd := stripIntSign cs0
  let neg := sd.1
  let bc := goFloatPrefix sd.2
  let base := bc.1
  let expChar := bc.2.1
  let sr := scanMantissa base bc.2.2 {}
  let st := sr.1
  if !st.sawdigits then none
  else
    let mant : ℚ := (st.ip : ℚ) + (st.fp : ℚ) / (base : ℚ) ^ st.fplen
    match sr.2 with
    | [] =>
      if base = 16 then none
      else checkUnderscores cs0 st.underscores (if neg then -mant else mant)
    | e :: rest1 =>
      if e.toLower = expChar then
        let sr2 := stripIntSign rest1
        let esign : Int := if sr2.1 then -1 else 1
        match sr2.2 with
        | [] => none
        | d :: _ =>
          if !d.isDigit then none
          else
            let ev := scanExpDigits sr2.2 0 false
            match ev.2.2 with
            | _ :: _ => none
            | [] =>
              let q := mant * ratPowInt (expBase base) (esign * ev.1)
              checkUnderscores cs0 (st.underscores || ev.2.1) (if neg then -q else q)
      else none

/-- Special values recognised by strconv.ParseFloat: a possibly signed
Inf or Infinity, and an unsigned NaN, all case-insensitively, consuming
the whole input. -/
def goParseFloatSpecial (cs : List Char) : Option GoFloat :=
  match cs with
  | [] => none
  | c :: rest =>
    if c = '+' || c = '-' then
      let l := rest.map Char.toLower
      if l = "inf".toList || l = "infinity".toList then some (GoFloat.inf (c = '-')) else none
    else
      let l := cs.map Char.toLower
      if l = "inf".toList || l = "infinity".toList then some (GoFloat.inf false)
      else if l = "nan".toList then some GoFloat.nan
      else none

/-- Smallest magnitude whose binary64 rounding is infinite: the midpoint
between the largest finite binary64 value and 2^1024 (ties round to the even
significand, which overflows). -/
def ovfl : ℚ := ((2 ^ 1024 - 2 ^ 970 : ℕ) : ℚ)

/-- strconv.ParseFloat(s, 64): specials first, then readFloat; a finite
value whose binary64 rounding would be infinite is a range error (Go returns
Inf together with ErrRange, which every caller in this code base treats as
failure).  Errors carry the NumError message. -/
def goParseFloat (s : String) : Except String GoFloat :=
  match goParseFloatSpecial s.toList with
  | some f => Except.ok f
  | none =>
    match goReadFloat s.toList with
    | none => Except.error (numErrMsg "ParseFloat" s NumErr.invalid)
    | some q =>
      if ovfl ≤ |q| then Except.error (numErrMsg "ParseFloat" s NumErr.range)
      else Except.ok (GoFloat.finite q)

/-! ## Value model

The Go code passes query arguments and receives column values as interface
values holding string, int64, float64 or nil.  These become a closed
inductive type. -/

/-- Dynamic values of the Go code (interface holding string, int64, float64
or nil). -/
inductive Value where
  | vnull
  | vint (n : Int)
  | vfloat (f : GoFloat)
  | vstr (s : String)
deriving DecidableEq

/-! ## models package: ParamType, ParamDefinition, Metric, MetricResult -/

/-- Go constant models.ParamTypeString (ParamType is a string type). -/
def paramTypeString : String := "string"

/-- Go constant models.ParamTypeInt. -/
def paramTypeInt : String := "int"

/-- Go constant models.ParamTypeFloat. -/
def paramTypeFloat : String := "float"

/-- models.ParamType.IsValid: the three declared constants are valid. -/
def paramTypeIsValid (pt : String) : Bool :=
  pt = paramTypeString || pt = paramTypeInt || pt = paramTypeFloat

/-- models.ParamDefinition: name, type and required flag of one declared
query parameter. -/
structure ParamDefinition where
  name : String
  ptype : String
  required : Bool
deriving DecidableEq

/-- models.ParamDefinition.Validate: non-empty name, valid type. -/
def ParamDefinition.Validate (pd : ParamDefinition) : Except String Unit :=
  if pd.name = "" then Except.error "parameter name cannot be empty"
  else if !paramTypeIsValid pd.ptype then
    Except.error "parameter type must be string, int, or float"
  else Except.ok ()

/-- models.Metric: a named query with its result shape and ordered parameter
declarations. -/
structure Metric where
  name : String
  query : String
  multiRow : Bool
  params : List ParamDefinition
deriving DecidableEq

/-- Validation loop over the parameter declarations of a metric. -/
def validateParams : List ParamDefinition → Except String Unit
  | [] => Except.ok ()
  | pd :: rest =>
    match pd.Validate with
    | Except.error e => Except.error e
    | Except.ok _ => validateParams rest

/-- models.Metric.Validate: non-empty name and query, valid parameter
declarations. -/
def Metric.Validate (m : Metric) : Except String Unit :=
  if m.name = "" then Except.error "metric name cannot be empty"
  else if m.query = "" then Except.error "metric query cannot be empty"
  else validateParams m.params

/-- A metric value as returned to the API: the scalar of a single-value
query or the row maps of a multi-row query.  Row maps are modelled as
association lists in column order. -/
inductive ResultValue where
  | scalar (v : Value)
  | rows (rs : List (List (String × Value)))
deriving DecidableEq

/-- models.MetricResult.  The value field is an Option because the Go zero
value of the struct carries a nil interface; GetMetric always fills it. -/
structure MetricResult where
  name : String
  value : Option ResultValue
deriving DecidableEq

/-! ## config package: validateMetrics and LoadConfig -/

/-- Duplicate-name and per-metric validation loop of config.validateMetrics;
the seen set (a Go map used as a set) is modelled as a list of names. -/
def validateMetricsLoop : List Metric → List String → Except String Unit
  | [], _ => Except.ok ()
  | m :: rest, seen =>
    if m.name ∈ seen then Except.error ("duplicate metric name: " ++ m.name)
    else
      match m.Validate with
      | Except.error e => Except.error ("invalid metric " ++ m.name ++ ": " ++ e)
      | Except.ok _ => validateMetricsLoop rest (m.name :: seen)

/-- config.validateMetrics: an empty metric list is rejected, then the
duplicate/validity loop runs. -/
def validateMetrics (metrics : List Metric) : Except String Unit :=
  if metrics.isEmpty then Except.error "no metrics defined in config"
  else validateMetricsLoop metrics []

/-- config.LoadConfig after TOML decoding (the TOML parser is an external
library and is not modelled): validates the decoded metrics and returns them
unchanged on success. -/
def LoadConfig (metrics : List Metric) : Except String (List Metric) :=
  match validateMetrics metrics with
  | Except.error e => Except.error e
  | Except.ok _ => Except.ok metrics

/-! ## repository package -/

/-- Storage classes of a SQLite column value as surfaced by the driver. -/
inductive SQLiteValue where
  | snull
  | sint (n : Int)
  | sreal (q : ℚ)
  | stext (s : String)
deriving DecidableEq

/-- Conversion performed by database/sql Scan into an interface value:
NULL becomes nil, integer columns int64, real columns float64, text
columns string. -/
def driverValue : SQLiteValue → Value
  | SQLiteValue.snull => Value.vnull
  | SQLiteValue.sint n => Value.vint n
  | SQLiteValue.sreal q => Value.vfloat (GoFloat.finite q)
  | SQLiteValue.stext s => Value.vstr s

/-- Raw result of executing one SQL statement: column names and rows of raw
column values.  The driver guarantees each row has one value per column. -/
structure SQLiteResult where
  columns : List String
  rows : List (List SQLiteValue)
deriving DecidableEq

/-- The database engine as an oracle: a query and its positional arguments
yield either an execution error or a raw result.  Errors during row
iteration are folded into the initial Except. -/
def SQLiteDB : Type := String → List Value → Except String SQLiteResult

/-- repository.SQLiteRepository.QuerySingleValue: runs the query, takes the
first row, scans its single column; zero rows yield the no-rows error and
other failures are wrapped as query failures. -/
def QuerySingleValue (db : SQLiteDB) (query : String) (args : List Value) :
    Except String Value :=
  match db query args with
  | Except.error e => Except.error ("query failed: " ++ e)
  | Except.ok res =>
    match res.rows with
    | [] => Except.error "no rows returned"
    | r :: _ =>
      match r with
      | [v] => Except.ok (driverValue v)
      | _ => Except.error "query failed: scan destination count mismatch"

/-- repository.SQLiteRepository.QueryMultiRow: runs the query and builds one
column-name to value map (association list in column order) per row; zero
rows yield the empty list, not an error. -/
def QueryMultiRow (db : SQLiteDB) (query : String) (args : List Value) :
    Except String (List (List (String × Value))) :=
  match db query args with
  | Except.error e => Except.error ("query failed: " ++ e)
  | Except.ok res => Except.ok (res.rows.map (fun r => res.columns.zip (r.map driverValue)))

/-! ## service package -/

/-- service.convertParamValue: converts one string input to the declared
parameter type using the strconv models above. -/
def convertParamValue (value : String) (paramType : String) : Except String Value :=
  if paramType = paramTypeString then Except.ok (Value.vstr value)
  else if paramType = paramTypeInt then
    match goParseInt64 value with
    | Except.error e => Except.error ("invalid integer value " ++ goQuote value ++ ": " ++ e)
    | Except.ok n => Except.ok (Value.vint n)
  else if paramType = paramTypeFloat then
    match goParseFloat value with
    | Except.error e => Except.error ("invalid float value " ++ goQuote value ++ ": " ++ e)
    | Except.ok f => Except.ok (Value.vfloat f)
  else Except.error ("unsupported parameter type: " ++ paramType)

/-- The repository interface as consumed by the service: the two query
methods as pure functions. -/
structure Repository where
  QuerySingleValue : String → List Value → Except String Value
  QueryMultiRow : String → List Value → Except String (List (List (String × Value)))

/-- The SQLite repository packaged behind the service-facing interface. -/
def sqliteRepository (db : SQLiteDB) : Repository :=
  { QuerySingleValue := QuerySingleValue db, QueryMultiRow := QueryMultiRow db }

/-- Which gateway method a call used. -/
inductive GatewayMethod where
  | singleValue
  | multiRow
deriving DecidableEq

/-- One observed gateway invocation: method, query text and positional
arguments.  The Go code performs these as side effects; the model returns
them alongside the result so that claims about invocations are statable. -/
structure GatewayCall where
  method : GatewayMethod
  query : String
  args : List Value
deriving DecidableEq

/-- service.NewMetricService: builds the name-keyed metric map; as with a Go
map built by insertion, a later duplicate name overwrites an earlier one. -/
def NewMetricService (metricsList : List Metric) : String → Option Metric :=
  metricsList.foldl (fun acc m => fun name => if name = m.name then some m else acc name)
    (fun _ => none)

/-- Parameter loop of service.prepareParams: for each declaration in order,
a missing required parameter is an error, a missing optional parameter is
replaced by the empty string, and the (possibly substituted) value is
converted to the declared type. -/
def prepareParamsLoop (mname : String) :
    List ParamDefinition → (String → Option String) → Except String (List Value)
  | [], _ => Except.ok []
  | pd :: rest, params =>
    let pexists := (params pd.name).isSome
    let value := (params pd.name).getD ""
    if pd.required && !pexists then
      Except.error ("metric " ++ goQuote mname ++ ": required parameter " ++
        goQuote pd.name ++ " is missing")
    else
      match convertParamValue value pd.ptype with
      | Except.error e =>
        Except.error ("metric " ++ goQuote mname ++ ": parameter " ++
          goQuote pd.name ++ ": " ++ e)
      | Except.ok v =>
        match prepareParamsLoop mname rest params with
        | Except.error e => Except.error e
        | Except.ok vs => Except.ok (v :: vs)

/-- service.MetricService.prepareParams: empty declarations short-circuit to
no arguments, otherwise the loop above runs. -/
def prepareParams (metric : Metric) (params : String → Option String) :
    Except String (List Value) :=
  if metric.params.isEmpty then Except.ok []
  else prepareParamsLoop metric.name metric.params params

/-- service.MetricService.GetMetric: metric lookup, parameter preparation,
then the single-value or multi-row gateway call; the gateway error is
wrapped with the metric name.  The second component is the list of gateway
invocations performed. -/
def GetMetric (repo : Repository) (metrics : String → Option Metric) (name : String)
    (params : String → Option String) :
    Except String (List MetricResult) × List GatewayCall :=
  match metrics name with
  | none => (Except.error ("metric " ++ goQuote name ++ " not found"), [])
  | some metric =>
    match prepareParams metric params with
    | Except.error e => (Except.error e, [])
    | Except.ok args =>
      if metric.multiRow then
        match repo.QueryMultiRow metric.query args with
        | Except.error e =>
          (Except.error ("metric " ++ goQuote metric.name ++ " failed: " ++ e),
           [⟨GatewayMethod.multiRow, metric.query, args⟩])
        | Except.ok rows =>
          (Except.ok [⟨metric.name, some (ResultValue.rows rows)⟩],
           [⟨GatewayMethod.multiRow, metric.query, args⟩])
      else
        match repo.QuerySingleValue metric.query args with
        | Except.error e =>
          (Except.error ("metric " ++ goQuote metric.name ++ " failed: " ++ e),
           [⟨GatewayMethod.singleValue, metric.query, args⟩])
        | Except.ok v =>
          (Except.ok [⟨metric.name, some (ResultValue.scalar v)⟩],
           [⟨GatewayMethod.singleValue, metric.query, args⟩])

/-- The zero MetricResult that Go's make initialises result slots to. -/
def emptyResult : MetricResult := ⟨"", none⟩

/-- The value the goroutine for slot i writes: the head of its GetMetric
result list, if that call succeeded with a non-empty list. -/
def slotWrite (outcomes : List (Except String (List MetricResult) × List GatewayCall))
    (i : Nat) : Option MetricResult :=
  match outcomes[i]? with
  | some (Except.ok (r :: _), _) => some r
  | _ => none

/-- The error the goroutine for slot i reports, if any. -/
def slotErr (outcomes : List (Except String (List MetricResult) × List GatewayCall))
    (i : Nat) : Option String :=
  match outcomes[i]? with
  | some (Except.error e, _) => some e
  | _ => none

/-- One goroutine completing: it writes its own slot of the result slice and
touches nothing else. -/
def writeSlot (outcomes : List (Except String (List MetricResult) × List GatewayCall))
    (arr : List MetricResult) (i : Nat) : List MetricResult :=
  match slotWrite outcomes i with
  | some r => arr.set i r
  | none => arr

/-- service.MetricService.GetMetrics: one GetMetric per requested name with
the shared params map, slot-indexed results, errgroup-style fail-fast (the
first error in completion order is returned and the partial results are
discarded).  The sched argument is the completion order of the goroutines;
claims quantify over every permutation of the indices.  The call log
aggregates the gateway calls of all resolutions. -/
def GetMetrics (repo : Repository) (metrics : String → Option Metric)
    (names : List String) (params : String → Option String) (sched : List Nat) :
    Except String (List MetricResult) × List GatewayCall :=
  let outcomes := names.map (fun n => GetMetric repo metrics n params)
  let log := (outcomes.map Prod.snd).flatten
  match sched.findSome? (slotErr outcomes) with
  | some e => (Except.error e, log)
  | none =>
    (Except.ok (sched.foldl (writeSlot outcomes) (List.replicate names.length emptyResult)),
     log)

/-! ## Specification-side definitions

These are written from the wording of the specification, independently of
the parser loops above, and are compared against the source-translated
definitions in the claim theorems. -/

/-- Value of a big-endian list of decimal digit characters. -/
def decDigitsVal (l : List Char) : Nat := Nat.ofDigits 10 ((l.map digitVal).reverse)

/-- Well-formedness per the specification of the Integer parameter type: an
optional sign followed by at least one decimal digit and nothing else. -/
def intWellFormed (s : String) : Bool :=
  let sd := stripIntSign s.toList
  !sd.2.isEmpty && sd.2.all Char.isDigit

/-- Mathematical value of a well-formed integer string. -/
def intSpecVal (s : String) : Int :=
  let sd := stripIntSign s.toList
  if sd.1 then -(decDigitsVal sd.2 : Int) else (decDigitsVal sd.2 : Int)

/-- Standard decimal mantissa per the specification: digits with an optional
single dot, with at least one digit overall.  Returns its exact value. -/
def stdMantissaVal (cs : List Char) : Option ℚ :=
  let ds := cs.takeWhile Char.isDigit
  match cs.dropWhile Char.isDigit with
  | [] => if ds.isEmpty then none else some (decDigitsVal ds : ℚ)
  | r0 :: fs =>
    if r0 = '.' then
      if fs.all Char.isDigit && !(ds.isEmpty && fs.isEmpty) then
        some ((decDigitsVal ds : ℚ) + (decDigitsVal fs : ℚ) / (10 : ℚ) ^ fs.length)
      else none
    else none

/-- Standard exponent part per the specification: absent, or the letter e
with an optional sign and at least one digit.  Returns the signed exponent. -/
def stdExpVal (cs : List Char) : Option Int :=
  match cs with
  | [] => some 0
  | e :: r =>
    if e = 'e' || e = 'E' then
      let sr := stripIntSign r
      if !sr.2.isEmpty && sr.2.all Char.isDigit then
        some (if sr.1 then -(decDigitsVal sr.2 : Int) else (decDigitsVal sr.2 : Int))
      else none
    else none

/-- Standard decimal or exponential float notation per the specification:
an optional sign, a standard decimal mantissa, then a standard exponent
part, the mantissa ending at the first exponent letter.  Returns the exact
value of the literal. -/
def stdDecimalExpVal (s : String) : Option ℚ :=
  let sd := stripIntSign s.toList
  let m := sd.2.takeWhile (fun c => !(c = 'e' || c = 'E'))
  let e := sd.2.dropWhile (fun c => !(c = 'e' || c = 'E'))
  match stdMantissaVal m, stdExpVal e with
  | some mq, some ev =>
    some ((if sd.1 then -mq else mq) * ratPowInt 10 ev)
  | _, _ => none

/-- A string in standard decimal or exponential notation. -/
def stdDecimalExp (s : String) : Bool := (stdDecimalExpVal s).isSome

/-- Folding decimal digits onto an accumulator, the common denominator of
the parser loops. -/
def pushDigits (a : Nat) (cs : List Char) : Nat :=
  cs.foldl (fun x c => x * 10 + digitVal c) a

/-- Folding digits of an arbitrary base onto an accumulator. -/
def pushBase (base : Nat) (a : Nat) (cs : List Char) : Nat :=
  cs.foldl (fun x c => x * base + hexVal c) a

/-! ### The full float grammar, from the amended claim's wording

The amended float clause states that conversion succeeds exactly on the
special spellings and on well-formed decimal or hexadecimal float literals
with legally placed underscore separators whose exact value is below the
binary64 overflow threshold.  The grammar is written here as a splitter
(`takeWhile`/`dropWhile` decomposition of the literal into sign, digit
groups, dot and exponent), independently of the character-at-a-time
scanner loops of the strconv model above, and the claim theorem compares
the two. -/

/-- A digit of the given base: a decimal digit, or additionally a
hexadecimal letter when the base is 16. -/
def litDigit (base : Nat) (c : Char) : Bool :=
  c.isDigit || (decide (base = 16) && isHexLetter c)

/-- A character of a mantissa digit group: a digit of the base or an
underscore separator. -/
def litGroupChar (base : Nat) (c : Char) : Bool :=
  litDigit base c || decide (c = '_')

/-- A character of an exponent digit group: a decimal digit or an
underscore separator. -/
def expGroupChar (c : Char) : Bool := c.isDigit || decide (c = '_')

/-- The digits of a group with the underscore separators removed. -/
def litDigits (l : List Char) : List Char := l.filter (fun c => !decide (c = '_'))

/-- Whether a digit group uses any underscore separator. -/
def hasUnderscore (l : List Char) : Bool := l.any (fun c => decide (c = '_'))

/-- Value of a big-endian list of digit characters in the given base. -/
def litVal (base : Nat) (l : List Char) : Nat :=
  Nat.ofDigits base ((l.map hexVal).reverse)

/-- Splits a mantissa into its integer digit group, its fractional digit
group (after at most one dot) and the remainder of the input. -/
def mantSplit (base : Nat) (l : List Char) : List Char × List Char × List Char :=
  let w1 := l.takeWhile (litGroupChar base)
  match l.dropWhile (litGroupChar base) with
  | c :: t =>
    if c = '.' then
      (w1, t.takeWhile (litGroupChar base), t.dropWhile (litGroupChar base))
    else (w1, [], c :: t)
  | [] => (w1, [], [])

/-- A finite float literal per the amended claim's wording: an optional
sign, then either a decimal form (a digit group with at most one dot and at
least one digit, optionally followed by e or E, an optional exponent sign
and an exponent digit group starting with a digit) or a hexadecimal form (a
0x or 0X prefix with at least one following character, hexadecimal digit
groups with at most one dot and at least one digit, and a mandatory binary
exponent introduced by p or P in the same shape), consuming the whole
input.  Underscore separators are admitted exactly where Go admits them
(between digits, or between the base prefix and a digit), checked over the
whole literal.  Returns the exact rational value: the mantissa times 10 (or
2, for hexadecimal literals) to the signed exponent. -/
def floatLitVal (cs : List Char) : Option ℚ :=
  let sd := stripIntSign cs
  let bc := goFloatPrefix sd.2
  let base := bc.1
  let ms := mantSplit base bc.2.2
  let w1 := ms.1
  let w2 := ms.2.1
  let r2 := ms.2.2
  if !(w1.any (litDigit base) || w2.any (litDigit base)) then none
  else
    let usc := hasUnderscore w1 || hasUnderscore w2
    let mant : ℚ := (litVal base (litDigits w1) : ℚ)
      + (litVal base (litDigits w2) : ℚ) / (base : ℚ) ^ (litDigits w2).length
    match r2 with
    | [] =>
      if base = 16 then none
      else checkUnderscores cs usc (if sd.1 then -mant else mant)
    | e :: rest1 =>
      if e.toLower = bc.2.1 then
        let sr2 := stripIntSign rest1
        let esign : Int := if sr2.1 then -1 else 1
        match sr2.2 with
        | [] => none
        | d :: _ =>
          if !d.isDigit then none
          else
            let w3 := sr2.2.takeWhile expGroupChar
            match sr2.2.dropWhile expGroupChar with
            | _ :: _ => none
            | [] =>
              let q := mant * ratPowInt (expBase base)
                (esign * (decDigitsVal (litDigits w3) : Int))
              checkUnderscores cs (usc || hasUnderscore w3) (if sd.1 then -q else q)
      else none

/-- The float acceptance specification assembled from the amended claim's
wording: one of the special spellings (a possibly signed case-insensitive
Inf or Infinity, an unsigned case-insensitive NaN), or a well-formed float
literal whose exact value is below the binary64 overflow threshold; every
other string is rejected.  The special spellings and the overflow threshold
are shared with the strconv model above, being themselves direct
transcriptions of the specification's enumeration. -/
def goFloatSpec (s : String) : Option GoFloat :=
  match goParseFloatSpecial s.toList with
  | some f => some f
  | none =>
    match floatLitVal s.toList with
    | none => none
    | some q => if ovfl ≤ |q| then none else some (GoFloat.finite q)

/-! ## Claim theorems -/

/-- C1: the claim states that a metric with an optional (required = false)
parameter that is absent from the inputs fails with an error specific to
unsupported optional parameters, never substitutes a default and never
invokes the Gateway.  The code in src diverges: prepareParams substitutes
the empty string for a missing optional parameter, so a string-typed
optional parameter is silently defaulted to the empty string and the
Gateway IS invoked with it, and an int-typed optional parameter fails with
a ParameterConversionError on the empty string instead.  (The repository's
journal records exactly this as a bug fixed in commit a58a376; the snapshot
in src predates the fix, so the claim describes the documented intent and
the code contradicts it.) -/
theorem getMetric_missing_optional_param_divergence :
    (GetMetric
      { QuerySingleValue := fun _ _ => Except.ok (Value.vint 0)
        QueryMultiRow := fun _ _ => Except.ok [] }
      (NewMetricService [⟨"recent_users", "SELECT name FROM users WHERE name LIKE ?", true,
        [⟨"pattern", "string", false⟩]⟩])
      "recent_users" (fun _ => none)
      = (Except.ok [⟨"recent_users", some (ResultValue.rows [])⟩],
         [⟨GatewayMethod.multiRow, "SELECT name FROM users WHERE name LIKE ?",
           [Value.vstr ""]⟩])) ∧
    (GetMetric
      { QuerySingleValue := fun _ _ => Except.ok (Value.vint 0)
        QueryMultiRow := fun _ _ => Except.ok [] }
      (NewMetricService [⟨"users_limited", "SELECT * FROM users LIMIT ?", true,
        [⟨"limit", "int", false⟩]⟩])
      "users_limited" (fun _ => none)
      = (Except.error ("metric \"users_limited\": parameter \"limit\": " ++
          "invalid integer value \"\": strconv.ParseInt: parsing \"\": invalid syntax"),
         [])) :=
  ⟨rfl, rfl⟩

/-- Folding slot writes over an empty outcome list changes nothing. -/
theorem foldl_writeSlot_nil (sched : List Nat) :
    sched.foldl (writeSlot []) [] = [] := by
  induction sched with
  | nil => rfl
  | cons i rest ih =>
    simpa [writeSlot, slotWrite] using ih

/-- C4: GetMetrics on an empty name list returns an empty result sequence,
no error, and performs no gateway call, for every repository, catalog,
input map and completion schedule. -/
theorem getMetrics_empty_names (repo : Repository) (metrics : String → Option Metric)
    (params : String → Option String) (sched : List Nat) :
    GetMetrics repo metrics [] params sched = (Except.ok [], []) := by
  unfold GetMetrics
  have hnone : sched.findSome? (slotErr []) = none := by
    rw [List.findSome?_eq_none_iff]
    intro i _
    simp [slotErr]
  simp only [List.map_nil, List.flatten_nil, List.length_nil, List.replicate_zero, hnone]
  rw [foldl_writeSlot_nil]

/-- C6: a scalar query whose execution yields zero rows fails with the
no-rows error; it never returns a successful value. -/
theorem querySingleValue_no_rows_error (db : SQLiteDB) (q : String) (args : List Value)
    (res : SQLiteResult) (hdb : db q args = Except.ok res) (hrows : res.rows = []) :
    QuerySingleValue db q args = Except.error "no rows returned" ∧
    ∀ v, QuerySingleValue db q args ≠ Except.ok v := by
  have h : QuerySingleValue db q args = Except.error "no rows returned" := by
    simp only [QuerySingleValue, hdb, hrows]
  exact ⟨h, fun v hv => by rw [h] at hv; cases hv⟩

/-- C6 witness: a concrete scalar query with an empty result set. -/
theorem querySingleValue_no_rows_error_witness :
    QuerySingleValue (fun _ _ => Except.ok ⟨["count"], []⟩) "SELECT COUNT(*) FROM t" []
      = Except.error "no rows returned" :=
  (querySingleValue_no_rows_error (fun _ _ => Except.ok ⟨["count"], []⟩)
    "SELECT COUNT(*) FROM t" [] ⟨["count"], []⟩ rfl rfl).1

/-- C7: a tabular query whose execution yields zero rows succeeds with an
empty row sequence. -/
theorem queryMultiRow_no_rows_empty (db : SQLiteDB) (q : String) (args : List Value)
    (res : SQLiteResult) (hdb : db q args = Except.ok res) (hrows : res.rows = []) :
    QueryMultiRow db q args = Except.ok [] := by
  simp only [QueryMultiRow, hdb, hrows, List.map_nil]

/-- C7 witness: a concrete tabular query with an empty result set. -/
theorem queryMultiRow_no_rows_empty_witness :
    QueryMultiRow (fun _ _ => Except.ok ⟨["v"], []⟩) "SELECT v FROM t WHERE id = ?"
      [Value.vint 99] = Except.ok [] :=
  queryMultiRow_no_rows_empty (fun _ _ => Except.ok ⟨["v"], []⟩)
    "SELECT v FROM t WHERE id = ?" [Value.vint 99] ⟨["v"], []⟩ rfl rfl

/-- C8: each returned row maps each column name to the driver conversion of
its raw value, under which SQL NULL becomes the null value, integer columns
64-bit integers, real columns 64-bit floats and text columns strings, and
the null value is distinct from the empty string, from integer zero and
from float zero. -/
theorem queryMultiRow_null_fidelity (db : SQLiteDB) (q : String) (args : List Value)
    (res : SQLiteResult) (hdb : db q args = Except.ok res) :
    QueryMultiRow db q args
      = Except.ok (res.rows.map (fun r => res.columns.zip (r.map driverValue))) ∧
    driverValue SQLiteValue.snull = Value.vnull ∧
    (∀ n, driverValue (SQLiteValue.sint n) = Value.vint n) ∧
    (∀ qq, driverValue (SQLiteValue.sreal qq) = Value.vfloat (GoFloat.finite qq)) ∧
    (∀ s, driverValue (SQLiteValue.stext s) = Value.vstr s) ∧
    Value.vnull ≠ Value.vstr "" ∧ Value.vnull ≠ Value.vint 0 ∧
    Value.vnull ≠ Value.vfloat (GoFloat.finite 0) := by
  refine ⟨?_, rfl, fun _ => rfl, fun _ => rfl, fun _ => rfl, by simp, by simp, by simp⟩
  simp only [QueryMultiRow, hdb]

/-- C8 witness: a concrete table with a NULL in the second row. -/
theorem queryMultiRow_null_fidelity_witness :
    QueryMultiRow
      (fun _ _ => Except.ok ⟨["id", "optional"],
        [[SQLiteValue.sint 1, SQLiteValue.stext "value1"],
         [SQLiteValue.sint 2, SQLiteValue.snull]]⟩)
      "SELECT id, optional FROM test_data ORDER BY id" []
      = Except.ok [[("id", Value.vint 1), ("optional", Value.vstr "value1")],
                   [("id", Value.vint 2), ("optional", Value.vnull)]] :=
  (queryMultiRow_null_fidelity
    (fun _ _ => Except.ok ⟨["id", "optional"],
      [[SQLiteValue.sint 1, SQLiteValue.stext "value1"],
       [SQLiteValue.sint 2, SQLiteValue.snull]]⟩)
    "SELECT id, optional FROM test_data ORDER BY id" []
    ⟨["id", "optional"],
      [[SQLiteValue.sint 1, SQLiteValue.stext "value1"],
       [SQLiteValue.sint 2, SQLiteValue.snull]]⟩ rfl).1

/-- The validation loop succeeds when the names are distinct, every metric
is individually valid and no name is already in the seen set. -/
theorem validateMetricsLoop_ok (ms : List Metric) : ∀ seen : List String,
    (ms.map Metric.name).Nodup → (∀ m ∈ ms, m.Validate = Except.ok ()) →
    (∀ m ∈ ms, m.name ∉ seen) → validateMetricsLoop ms seen = Except.ok () := by
  induction ms with
  | nil => intro seen _ _ _; rfl
  | cons m rest ih =>
    intro seen hnd hv hs
    have hmem : m.name ∉ seen := hs m (List.mem_cons_self m rest)
    have hval : m.Validate = Except.ok () := hv m (List.mem_cons_self m rest)
    simp only [List.map_cons, List.nodup_cons] at hnd
    simp only [validateMetricsLoop, if_neg hmem, hval]
    refine ih (m.name :: seen) hnd.2 (fun m2 hm2 => hv m2 (List.mem_cons_of_mem m hm2)) ?_
    intro m2 hm2
    simp only [List.mem_cons]
    rintro (heq | hseen)
    · exact hnd.1 (heq ▸ List.mem_map_of_mem Metric.name hm2)
    · exact hs m2 (List.mem_cons_of_mem m hm2) hseen

/-- The validation loop cannot succeed when two metrics share a name or a
name is already in the seen set. -/
theorem validateMetricsLoop_err (ms : List Metric) : ∀ seen : List String,
    (¬ (ms.map Metric.name).Nodup ∨ ∃ m ∈ ms, m.name ∈ seen) →
    ∃ e, validateMetricsLoop ms seen = Except.error e := by
  induction ms with
  | nil =>
    intro seen h
    rcases h with h | ⟨m, hm, _⟩
    · exact absurd List.nodup_nil h
    · cases hm
  | cons m rest ih =>
    intro seen h
    by_cases hmem : m.name ∈ seen
    · exact ⟨"duplicate metric name: " ++ m.name, by simp only [validateMetricsLoop, if_pos hmem]⟩
    · cases hval : m.Validate with
      | error e =>
        exact ⟨"invalid metric " ++ m.name ++ ": " ++ e,
          by simp only [validateMetricsLoop, if_neg hmem, hval]⟩
      | ok u =>
        cases u
        simp only [validateMetricsLoop, if_neg hmem, hval]
        refine ih (m.name :: seen) ?_
        rcases h with hnd | ⟨m2, hm2, hseen⟩
        · simp only [List.map_cons, List.nodup_cons, not_and_or] at hnd
          rcases hnd with hin | hnd
          · rw [not_not] at hin
            obtain ⟨m2, hm2, hname⟩ := List.mem_map.mp hin
            exact Or.inr ⟨m2, hm2, by simp [hname]⟩
          · exact Or.inl hnd
        · rcases List.mem_cons.mp hm2 with rfl | hm2
          · exact absurd hseen hmem
          · exact Or.inr ⟨m2, hm2, List.mem_cons_of_mem _ hseen⟩

/-- C9: catalog construction fails for an empty metric sequence and for any
sequence with a repeated name; for individually valid metrics with pairwise
distinct names it succeeds and returns exactly the supplied definitions. -/
theorem loadConfig_catalog_validation (ms : List Metric) :
    ((ms = [] ∨ ¬ (ms.map Metric.name).Nodup) → ∃ e, LoadConfig ms = Except.error e) ∧
    ((ms ≠ [] ∧ (ms.map Metric.name).Nodup ∧ ∀ m ∈ ms, m.Validate = Except.ok ()) →
      LoadConfig ms = Except.ok ms) := by
  constructor
  · rintro (rfl | hnd)
    · exact ⟨"no metrics defined in config", rfl⟩
    · have hne : ms ≠ [] := by rintro rfl; exact hnd (by simp)
      obtain ⟨e, he⟩ := validateMetricsLoop_err ms [] (Or.inl hnd)
      refine ⟨e, ?_⟩
      have hemp : ms.isEmpty = false := by
        cases ms with
        | nil => exact absurd rfl hne
        | cons a b => rfl
      simp only [LoadConfig, validateMetrics, hemp, Bool.false_eq_true, if_false, he]
  · rintro ⟨hne, hnd, hv⟩
    have hloop := validateMetricsLoop_ok ms [] hnd hv (by simp)
    have hemp : ms.isEmpty = false := by
      cases ms with
      | nil => exact absurd rfl hne
      | cons a b => rfl
    simp only [LoadConfig, validateMetrics, hemp, Bool.false_eq_true, if_false, hloop]

/-- C9 witness: a duplicate-name catalog is rejected and a valid two-metric
catalog is returned unchanged. -/
theorem loadConfig_catalog_validation_witness :
    (∃ e, LoadConfig [⟨"a", "SELECT 1", false, []⟩, ⟨"a", "SELECT 2", true, []⟩]
      = Except.error e) ∧
    LoadConfig [⟨"a", "SELECT 1", false, []⟩,
                ⟨"b", "SELECT 2", true, [⟨"id", "int", true⟩]⟩]
      = Except.ok [⟨"a", "SELECT 1", false, []⟩,
                   ⟨"b", "SELECT 2", true, [⟨"id", "int", true⟩]⟩] :=
  ⟨(loadConfig_catalog_validation _).1 (Or.inr (by decide)),
   (loadConfig_catalog_validation _).2
     ⟨by decide, by decide, by intro m hm; fin_cases hm <;> rfl⟩⟩

/-- Parameter preparation reads the input map only at declared parameter
names. -/
theorem prepareParamsLoop_congr (mname : String) (pds : List ParamDefinition)
    (p1 p2 : String → Option String) (h : ∀ pd ∈ pds, p1 pd.name = p2 pd.name) :
    prepareParamsLoop mname pds p1 = prepareParamsLoop mname pds p2 := by
  induction pds with
  | nil => rfl
  | cons pd rest ih =>
    have hpd := h pd (List.mem_cons_self pd rest)
    have hrest := ih (fun pd2 hm => h pd2 (List.mem_cons_of_mem pd hm))
    simp only [prepareParamsLoop, hpd, hrest]

/-- C10: undeclared input keys are ignored: two input maps that agree on
every declared parameter name of the resolved metric produce the same
GetMetric outcome (result, error and gateway calls alike). -/
theorem getMetric_ignores_undeclared_inputs (repo : Repository)
    (metrics : String → Option Metric) (name : String) (p1 p2 : String → Option String)
    (h : ∀ m, metrics name = some m → ∀ pd ∈ m.params, p1 pd.name = p2 pd.name) :
    GetMetric repo metrics name p1 = GetMetric repo metrics name p2 := by
  unfold GetMetric
  cases hm : metrics name with
  | none => rfl
  | some m =>
    have hpp : prepareParams m p1 = prepareParams m p2 := by
      unfold prepareParams
      split
      · rfl
      · exact prepareParamsLoop_congr m.name m.params p1 p2 (h m hm)
    simp only [hpp]

/-- C10 witness: an extra undeclared key in the input map leaves a concrete
resolution unchanged. -/
theorem getMetric_ignores_undeclared_inputs_witness :
    GetMetric
      { QuerySingleValue := fun _ _ => Except.ok (Value.vint 0)
        QueryMultiRow := fun _ args => Except.ok [[("v", Value.vstr "x")], [("a", args.headD Value.vnull)]] }
      (NewMetricService [⟨"rows_by_id", "SELECT v FROM t WHERE id = ?", true,
        [⟨"id", "int", true⟩]⟩])
      "rows_by_id"
      (fun k => if k = "id" then some "7" else if k = "extra" then some "zzz" else none)
    = GetMetric
      { QuerySingleValue := fun _ _ => Except.ok (Value.vint 0)
        QueryMultiRow := fun _ args => Except.ok [[("v", Value.vstr "x")], [("a", args.headD Value.vnull)]] }
      (NewMetricService [⟨"rows_by_id", "SELECT v FROM t WHERE id = ?", true,
        [⟨"id", "int", true⟩]⟩])
      "rows_by_id"
      (fun k => if k = "id" then some "7" else none) :=
  getMetric_ignores_undeclared_inputs _ _ _ _ _
    (by
      intro m hm pd hpd
      have hm2 : some (⟨"rows_by_id", "SELECT v FROM t WHERE id = ?", true,
          [⟨"id", "int", true⟩]⟩ : Metric) = some m := hm
      cases hm2
      fin_cases hpd
      rfl)

/-- Writing one slot preserves the length of the result slice. -/
theorem length_writeSlot (o : List (Except String (List MetricResult) × List GatewayCall))
    (arr : List MetricResult) (i : Nat) : (writeSlot o arr i).length = arr.length := by
  unfold writeSlot
  cases slotWrite o i <;> simp

/-- Folding slot writes preserves the length of the result slice. -/
theorem length_foldl_writeSlot (o : List (Except String (List MetricResult) × List GatewayCall)) :
    ∀ (sched : List Nat) (arr : List MetricResult),
    (sched.foldl (writeSlot o) arr).length = arr.length := by
  intro sched
  induction sched with
  | nil => intro arr; rfl
  | cons i rest ih => intro arr; rw [List.foldl_cons, ih, length_writeSlot]

/-- After the goroutines of a schedule have completed, slot j holds its own
goroutine's write when j is scheduled, and the initial value otherwise:
writes to other slots never touch it, and repeated completions of the same
slot write the same value. -/
theorem getElem?_foldl_writeSlot
    (o : List (Except String (List MetricResult) × List GatewayCall)) :
    ∀ (sched : List Nat) (arr : List MetricResult) (j : Nat) (hj : j < arr.length),
    (sched.foldl (writeSlot o) arr)[j]? =
      some (match slotWrite o j with
            | some r => if j ∈ sched then r else arr[j]
            | none => arr[j]) := by
  intro sched
  induction sched with
  | nil =>
    intro arr j hj
    rw [List.foldl_nil, List.getElem?_eq_getElem hj]
    cases slotWrite o j <;> simp
  | cons i rest ih =>
    intro arr j hj
    have hj2 : j < (writeSlot o arr i).length := by rw [length_writeSlot]; exact hj
    rw [List.foldl_cons, ih (writeSlot o arr i) j hj2]
    have harr : (writeSlot o arr i)[j] =
        match slotWrite o i with
        | some ri => if i = j then ri else arr[j]
        | none => arr[j] := by
      cases hsi : slotWrite o i with
      | none => simp only [writeSlot, hsi]
      | some ri =>
        simp only [writeSlot, hsi]
        exact List.getElem_set (by rw [List.length_set]; exact hj)
    rw [harr]
    cases hsj : slotWrite o j with
    | none =>
      simp only [hsj]
      cases hsi : slotWrite o i with
      | none => simp only [hsi]
      | some ri =>
        have hij : ¬ i = j := by
          intro hij
          rw [hij, hsj] at hsi
          cases hsi
        simp only [hsi, if_neg hij]
    | some rj =>
      simp only [hsj]
      by_cases hjr : j ∈ rest
      · have hmem : j ∈ i :: rest := List.mem_cons_of_mem i hjr
        simp [hjr, hmem]
      · by_cases hij : i = j
        · have hsi2 : slotWrite o i = some rj := by rw [hij, hsj]
          have hmem : j ∈ i :: rest := by rw [hij]; exact List.mem_cons_self j rest
          simp [hjr, hsi2, hij, hmem, hsj]
        · have hmem : j ∉ i :: rest := by
            simp only [List.mem_cons]
            rintro (h2 | h2)
            · exact hij h2.symm
            · exact hjr h2
          cases hsi : slotWrite o i with
          | none => simp [hjr, hmem, hsi]
          | some ri => simp [hjr, hmem, hsi, hij]

/-- In a map built by NewMetricService, every stored metric is keyed by its
own name. -/
theorem newMetricService_aux (l : List Metric) :
    ∀ (acc : String → Option Metric), (∀ k m, acc k = some m → m.name = k) →
    ∀ k m,
      (l.foldl (fun acc m => fun name => if name = m.name then some m else acc name) acc) k
        = some m → m.name = k := by
  induction l with
  | nil => intro acc hacc; exact hacc
  | cons mt rest ih =>
    intro acc hacc
    rw [List.foldl_cons]
    refine ih _ ?_
    intro k m h
    by_cases hk : k = mt.name
    · simp only [if_pos hk] at h
      cases h
      exact hk.symm
    · simp only [if_neg hk] at h
      exact hacc k m h

/-- Lookup correctness of the service's metric map: a found metric carries
the requested name. -/
theorem newMetricService_name (l : List Metric) (k : String) (m : Metric)
    (h : NewMetricService l k = some m) : m.name = k :=
  newMetricService_aux l (fun _ => none) (fun _ _ h2 => by cases h2) k m h

/-- A successful GetMetric returns exactly one result, named after the
requested metric, when the catalog map keys metrics by their own name. -/
theorem getMetric_ok_shape (repo : Repository) (metrics : String → Option Metric)
    (name : String) (params : String → Option String) (res : List MetricResult)
    (lg : List GatewayCall)
    (hmap : ∀ k m, metrics k = some m → m.name = k)
    (h : GetMetric repo metrics name params = (Except.ok res, lg)) :
    ∃ r : MetricResult, res = [r] ∧ r.name = name := by
  unfold GetMetric at h
  cases hm : metrics name with
  | none => simp only [hm, Prod.mk.injEq] at h; cases h.1
  | some metric =>
    simp only [hm] at h
    have hname : metric.name = name := hmap name metric hm
    cases hpp : prepareParams metric params with
    | error e => simp only [hpp, Prod.mk.injEq] at h; cases h.1
    | ok args =>
      simp only [hpp] at h
      cases hmr : metric.multiRow with
      | true =>
        simp only [hmr, if_true] at h
        cases hq : repo.QueryMultiRow metric.query args with
        | error e => simp only [hq, Prod.mk.injEq] at h; cases h.1
        | ok rows =>
          simp only [hq, Prod.mk.injEq, Except.ok.injEq] at h
          exact ⟨⟨metric.name, some (ResultValue.rows rows)⟩, h.1.symm, hname⟩
      | false =>
        simp only [hmr, Bool.false_eq_true, if_false] at h
        cases hq : repo.QuerySingleValue metric.query args with
        | error e => simp only [hq, Prod.mk.injEq] at h; cases h.1
        | ok v =>
          simp only [hq, Prod.mk.injEq, Except.ok.injEq] at h
          exact ⟨⟨metric.name, some (ResultValue.scalar v)⟩, h.1.symm, hname⟩

/-- C2: when every individual resolution succeeds, GetMetrics returns
exactly one result per requested name, in the slot of that name (duplicates
preserved), each result named after the name at its index and equal to the
single result of that name's own resolution, for every completion order of
the goroutines. -/
theorem getMetrics_order_preserved (repo : Repository) (l : List Metric)
    (names : List String) (params : String → Option String) (sched : List Nat)
    (hperm : sched.Perm (List.range names.length))
    (hok : ∀ i (hi : i < names.length), ∃ res lg,
      GetMetric repo (NewMetricService l) (names.get ⟨i, hi⟩) params
        = (Except.ok res, lg)) :
    ∃ rs lg, GetMetrics repo (NewMetricService l) names params sched
        = (Except.ok rs, lg) ∧
      rs.length = names.length ∧
      ∀ i (hi : i < names.length), ∃ hri : i < rs.length,
        (rs.get ⟨i, hri⟩).name = names.get ⟨i, hi⟩ ∧
        ∃ lg2, GetMetric repo (NewMetricService l) (names.get ⟨i, hi⟩) params
          = (Except.ok [rs.get ⟨i, hri⟩], lg2) := by
  have hmap := newMetricService_name l
  set outcomes := names.map (fun n => GetMetric repo (NewMetricService l) n params)
    with houtc
  have houti : ∀ i (hi : i < names.length),
      outcomes[i]? = some (GetMetric repo (NewMetricService l) (names.get ⟨i, hi⟩) params) := by
    intro i hi
    rw [houtc, List.getElem?_map, List.getElem?_eq_getElem hi]
    rfl
  have hslot : ∀ i (hi : i < names.length), ∃ r : MetricResult,
      slotWrite outcomes i = some r ∧ r.name = names.get ⟨i, hi⟩ ∧
      ∃ lg2, GetMetric repo (NewMetricService l) (names.get ⟨i, hi⟩) params
        = (Except.ok [r], lg2) := by
    intro i hi
    obtain ⟨res, lg2, hout⟩ := hok i hi
    obtain ⟨r, hres, hname⟩ := getMetric_ok_shape repo (NewMetricService l)
      (names.get ⟨i, hi⟩) params res lg2 (fun k m => hmap k m) hout
    refine ⟨r, ?_, hname, lg2, by rw [hout, hres]⟩
    unfold slotWrite
    rw [houti i hi, hout, hres]
  have herr : ∀ i (hi : i < names.length), slotErr outcomes i = none := by
    intro i hi
    obtain ⟨res, lg2, hout⟩ := hok i hi
    unfold slotErr
    rw [houti i hi, hout]
  have hfs : sched.findSome? (slotErr outcomes) = none := by
    rw [List.findSome?_eq_none_iff]
    intro i hi
    have : i ∈ List.range names.length := (hperm.mem_iff).mp hi
    exact herr i (List.mem_range.mp this)
  refine ⟨sched.foldl (writeSlot outcomes) (List.replicate names.length emptyResult),
    (outcomes.map Prod.snd).flatten, ?_, ?_, ?_⟩
  · simp only [GetMetrics]
    rw [← houtc, hfs]
  · rw [length_foldl_writeSlot, List.length_replicate]
  · intro i hi
    have hri : i < (sched.foldl (writeSlot outcomes)
        (List.replicate names.length emptyResult)).length := by
      rw [length_foldl_writeSlot, List.length_replicate]
      exact hi
    obtain ⟨r, hsw, hname, lg2, hget⟩ := hslot i hi
    have hmem : i ∈ sched := (hperm.mem_iff).mpr (List.mem_range.mpr hi)
    have hrepl : i < (List.replicate names.length emptyResult).length := by
      rw [List.length_replicate]; exact hi
    have hgetq := getElem?_foldl_writeSlot outcomes sched
      (List.replicate names.length emptyResult) i hrepl
    rw [hsw] at hgetq
    simp only [if_pos hmem] at hgetq
    have : (sched.foldl (writeSlot outcomes)
        (List.replicate names.length emptyResult)).get ⟨i, hri⟩ = r := by
      have h2 := List.getElem?_eq_getElem hri
      rw [hgetq] at h2
      have h3 := Option.some.injEq _ _ ▸ h2
      exact (Option.some.inj h2.symm)
    refine ⟨hri, ?_, lg2, ?_⟩
    · rw [this]; exact hname
    · rw [this]; exact hget

/-- C2 witness: two metrics requested in the order b then a, with the
goroutine for slot one completing first. -/
theorem getMetrics_order_preserved_witness :
    ∃ rs lg, GetMetrics
        { QuerySingleValue := fun q _ => Except.ok (Value.vstr q)
          QueryMultiRow := fun _ _ => Except.ok [] }
        (NewMetricService [⟨"a", "q1", false, []⟩, ⟨"b", "q2", false, []⟩])
        ["b", "a"] (fun _ => none) [1, 0]
        = (Except.ok rs, lg) ∧
      rs.length = (["b", "a"] : List String).length ∧
      ∀ i (hi : i < (["b", "a"] : List String).length), ∃ hri : i < rs.length,
        (rs.get ⟨i, hri⟩).name = (["b", "a"] : List String).get ⟨i, hi⟩ ∧
        ∃ lg2, GetMetric
          { QuerySingleValue := fun q _ => Except.ok (Value.vstr q)
            QueryMultiRow := fun _ _ => Except.ok [] }
          (NewMetricService [⟨"a", "q1", false, []⟩, ⟨"b", "q2", false, []⟩])
          ((["b", "a"] : List String).get ⟨i, hi⟩) (fun _ => none)
          = (Except.ok [rs.get ⟨i, hri⟩], lg2) :=
  getMetrics_order_preserved
    { QuerySingleValue := fun q _ => Except.ok (Value.vstr q)
      QueryMultiRow := fun _ _ => Except.ok [] }
    [⟨"a", "q1", false, []⟩, ⟨"b", "q2", false, []⟩]
    ["b", "a"] (fun _ => none) [1, 0]
    (by decide)
    (by
      intro i hi
      match i, hi with
      | 0, _ => exact ⟨[⟨"b", some (ResultValue.scalar (Value.vstr "q2"))⟩], _, rfl⟩
      | 1, _ => exact ⟨[⟨"a", some (ResultValue.scalar (Value.vstr "q1"))⟩], _, rfl⟩)

/-- C3: when at least one individual resolution fails, GetMetrics returns a
single error and no result list at all, for every completion order. -/
theorem getMetrics_fail_fast (repo : Repository) (metrics : String → Option Metric)
    (names : List String) (params : String → Option String) (sched : List Nat)
    (hperm : sched.Perm (List.range names.length))
    (hfail : ∃ i, ∃ hi : i < names.length, ∃ e lg,
      GetMetric repo metrics (names.get ⟨i, hi⟩) params = (Except.error e, lg)) :
    (∃ e2, (GetMetrics repo metrics names params sched).1 = Except.error e2) ∧
    ∀ rs lg, GetMetrics repo metrics names params sched ≠ (Except.ok rs, lg) := by
  obtain ⟨i, hi, e, lg, hout⟩ := hfail
  set outcomes := names.map (fun n => GetMetric repo metrics n params) with houtc
  have houti : outcomes[i]? = some (GetMetric repo metrics (names.get ⟨i, hi⟩) params) := by
    rw [houtc, List.getElem?_map, List.getElem?_eq_getElem hi]
    rfl
  have hse : slotErr outcomes i = some e := by
    unfold slotErr
    rw [houti, hout]
  have hmem : i ∈ sched := (hperm.mem_iff).mpr (List.mem_range.mpr hi)
  cases hfs : sched.findSome? (slotErr outcomes) with
  | none =>
    exact absurd hse (by rw [List.findSome?_eq_none_iff.mp hfs i hmem]; simp)
  | some e2 =>
    have hval : GetMetrics repo metrics names params sched
        = (Except.error e2, (outcomes.map Prod.snd).flatten) := by
      simp only [GetMetrics]
      rw [← houtc, hfs]
    constructor
    · exact ⟨e2, by rw [hval]⟩
    · intro rs lg2 hcontra
      rw [hval] at hcontra
      cases (Prod.mk.injEq _ _ _ _ ▸ hcontra).1

/-- C3 witness: a two-name batch in which the second resolution fails with
an unknown metric, completing first. -/
theorem getMetrics_fail_fast_witness :
    (∃ e2, (GetMetrics
      { QuerySingleValue := fun q _ => Except.ok (Value.vstr q)
        QueryMultiRow := fun _ _ => Except.ok [] }
      (NewMetricService [⟨"a", "q1", false, []⟩])
      ["a", "nope"] (fun _ => none) [1, 0]).1 = Except.error e2) ∧
    ∀ rs lg, GetMetrics
      { QuerySingleValue := fun q _ => Except.ok (Value.vstr q)
        QueryMultiRow := fun _ _ => Except.ok [] }
      (NewMetricService [⟨"a", "q1", false, []⟩])
      ["a", "nope"] (fun _ => none) [1, 0] ≠ (Except.ok rs, lg) :=
  getMetrics_fail_fast
    { QuerySingleValue := fun q _ => Except.ok (Value.vstr q)
      QueryMultiRow := fun _ _ => Except.ok [] }
    (NewMetricService [⟨"a", "q1", false, []⟩])
    ["a", "nope"] (fun _ => none) [1, 0]
    (by decide)
    ⟨1, by decide, "metric \"nope\" not found", [], rfl⟩

/-- Accumulator form of the digit value: folding digits equals shifting the
accumulator past them and adding their value. -/
theorem pushDigits_eq (cs : List Char) : ∀ a : Nat,
    pushDigits a cs = a * 10 ^ cs.length + decDigitsVal cs := by
  induction cs with
  | nil =>
    intro a
    simp [pushDigits, decDigitsVal, Nat.ofDigits_nil]
  | cons c cs ih =>
    intro a
    have hstep : pushDigits a (c :: cs) = pushDigits (a * 10 + digitVal c) cs := rfl
    rw [hstep, ih]
    have hval : decDigitsVal (c :: cs) = decDigitsVal cs + 10 ^ cs.length * digitVal c := by
      simp only [decDigitsVal, List.map_cons, List.reverse_cons, Nat.ofDigits_append]
      simp [Nat.ofDigits_singleton, List.length_reverse, List.length_map]
    rw [hval]
    simp [List.length_cons]
    ring

/-- Digit folding never decreases the accumulator. -/
theorem le_pushDigits (cs : List Char) : ∀ a : Nat, a ≤ pushDigits a cs := by
  induction cs with
  | nil => intro a; exact Nat.le_refl a
  | cons c cs ih =>
    intro a
    have h1 : a ≤ a * 10 + digitVal c := by omega
    exact h1.trans (ih (a * 10 + digitVal c))

/-- The digit value of a list equals the fold from zero. -/
theorem pushDigits_zero (cs : List Char) : pushDigits 0 cs = decDigitsVal cs := by
  have := pushDigits_eq cs 0
  simpa using this

/-- Characterisation of the ParseUint digit loop: it succeeds exactly on
all-digit input whose value fits in uint64, and then computes that value;
the cutoff-based overflow detection of the Go loop is equivalent to the
direct bound. -/
theorem parseUintLoop_ok (cs : List Char) : ∀ (a : Nat), a ≤ maxUint64 → ∀ v,
    (parseUintLoop cs a = Except.ok v ↔
      (cs.all Char.isDigit = true ∧ pushDigits a cs ≤ maxUint64 ∧ v = pushDigits a cs)) := by
  induction cs with
  | nil =>
    intro a ha v
    constructor
    · intro h
      cases h
      exact ⟨rfl, ha, rfl⟩
    · rintro ⟨-, -, rfl⟩
      rfl
  | cons c cs ih =>
    intro a ha v
    cases hd : c.isDigit with
    | false =>
      constructor
      · intro h
        simp only [parseUintLoop, hd, Bool.false_eq_true, if_false] at h
        cases h
      · rintro ⟨hall, -, -⟩
        simp only [List.all_cons, hd, Bool.false_and] at hall
        cases hall
    | true =>
      have hpush : pushDigits a (c :: cs) = pushDigits (a * 10 + digitVal c) cs := rfl
      by_cases hcut : uintCutoff ≤ a
      · have hbig : maxUint64 < pushDigits a (c :: cs) := by
          rw [hpush]
          have h1 : a * 10 + digitVal c ≤ pushDigits (a * 10 + digitVal c) cs :=
            le_pushDigits cs _
          have h2 : maxUint64 < uintCutoff * 10 := by decide
          have h3 : uintCutoff * 10 ≤ a * 10 := by omega
          omega
        constructor
        · intro h
          simp only [parseUintLoop, hd, if_true, if_pos hcut] at h
          cases h
        · rintro ⟨-, hle, -⟩
          omega
      · by_cases hmax : maxUint64 < a * 10 + digitVal c
        · have hbig : maxUint64 < pushDigits a (c :: cs) := by
            rw [hpush]
            have h1 : a * 10 + digitVal c ≤ pushDigits (a * 10 + digitVal c) cs :=
              le_pushDigits cs _
            omega
          constructor
          · intro h
            simp only [parseUintLoop, hd, if_true, if_neg hcut, if_pos hmax] at h
            cases h
          · rintro ⟨-, hle, -⟩
            omega
        · have hstep : parseUintLoop (c :: cs) a = parseUintLoop cs (a * 10 + digitVal c) := by
            simp only [parseUintLoop, hd, if_true, if_neg hcut, if_neg hmax]
          rw [hstep, hpush]
          have ha2 : a * 10 + digitVal c ≤ maxUint64 := by omega
          rw [ih (a * 10 + digitVal c) ha2 v]
          simp [List.all_cons, hd]

/-- Characterisation of the modelled strconv.ParseUint: success exactly on
non-empty all-digit input with value at most maxUint64. -/
theorem goParseUint64_ok (cs : List Char) (v : Nat) :
    goParseUint64 cs = Except.ok v ↔
      (cs ≠ [] ∧ cs.all Char.isDigit = true ∧ decDigitsVal cs ≤ maxUint64 ∧
        v = decDigitsVal cs) := by
  unfold goParseUint64
  cases cs with
  | nil => simp
  | cons c cs =>
    rw [if_neg (by simp)]
    rw [parseUintLoop_ok (c :: cs) 0 (by simp [maxUint64]) v]
    rw [pushDigits_zero]
    simp

/-- Characterisation of the modelled strconv.ParseInt at base 10 and bit
size 64: success exactly on well-formed input whose signed value is in the
64-bit range, producing that value. -/
theorem goParseInt64_ok (s : String) (n : Int) :
    goParseInt64 s = Except.ok n ↔
      (intWellFormed s = true ∧ n = intSpecVal s ∧
        -(2 ^ 63) ≤ n ∧ n < 2 ^ 63) := by
  have hpN : (2 : Nat) ^ 63 = 9223372036854775808 := by norm_num
  have hpZ : (2 : Int) ^ 63 = 9223372036854775808 := by norm_num
  have hmx : maxUint64 = 18446744073709551615 := by decide
  rcases hsd : stripIntSign s.toList with ⟨neg, ds⟩
  have hw : intWellFormed s = (!ds.isEmpty && ds.all Char.isDigit) := by
    simp only [intWellFormed, hsd]
  have hv : intSpecVal s
      = if neg then -(decDigitsVal ds : Int) else (decDigitsVal ds : Int) := by
    simp only [intSpecVal, hsd]
  have hred : goParseInt64 s =
      match goParseUint64 ds with
      | Except.error e => Except.error (numErrMsg "ParseInt" s e)
      | Except.ok un =>
        if !neg && decide (2 ^ 63 ≤ un) then
          Except.error (numErrMsg "ParseInt" s NumErr.range)
        else if neg && decide (2 ^ 63 < un) then
          Except.error (numErrMsg "ParseInt" s NumErr.range)
        else Except.ok (if neg then -(un : Int) else (un : Int)) := by
    simp only [goParseInt64, hsd]
  rw [hred, hw, hv]
  cases hu : goParseUint64 ds with
  | error e =>
    simp only [hu]
    constructor
    · intro h
      simp at h
    · rintro ⟨hwf, hn, hlo, hhi⟩
      simp only [Bool.and_eq_true, Bool.not_eq_eq_eq_not, Bool.not_true] at hwf
      have hne : ds ≠ [] := by
        intro hnil
        rw [hnil] at hwf
        simp at hwf
      have hbound : decDigitsVal ds ≤ maxUint64 := by
        cases neg with
        | false =>
          simp only [Bool.false_eq_true, if_false] at hn
          omega
        | true =>
          simp only [if_true] at hn
          omega
      have hok : goParseUint64 ds = Except.ok (decDigitsVal ds) :=
        (goParseUint64_ok ds (decDigitsVal ds)).mpr ⟨hne, hwf.2, hbound, rfl⟩
      rw [hok] at hu
      cases hu
  | ok un =>
    obtain ⟨hne, hall, hbound, hval⟩ := (goParseUint64_ok ds un).mp hu
    have hemp : ds.isEmpty = false := by
      cases ds with
      | nil => exact absurd rfl hne
      | cons a b => rfl
    subst hval
    simp only [hu, hemp, hall, Bool.not_false, Bool.true_and, Bool.and_true,
      decide_eq_true_eq]
    cases neg with
    | false =>
      simp only [Bool.not_false, Bool.true_and, Bool.false_and, Bool.false_eq_true,
        if_false, decide_eq_true_eq]
      by_cases hr : (2 : Nat) ^ 63 ≤ decDigitsVal ds
      · rw [if_pos hr]
        constructor
        · intro h
          simp at h
        · rintro ⟨-, hn, -, hhi⟩
          omega
      · rw [if_neg hr]
        simp only [Except.ok.injEq]
        constructor
        · intro h
          exact ⟨trivial, h.symm, by omega, by omega⟩
        · rintro ⟨-, hn, -, -⟩
          exact hn.symm
    | true =>
      simp only [Bool.not_true, Bool.false_and, Bool.true_and, Bool.false_eq_true,
        if_false, if_true, decide_eq_true_eq]
      by_cases hr : (2 : Nat) ^ 63 < decDigitsVal ds
      · rw [if_pos hr]
        constructor
        · intro h
          simp at h
        · rintro ⟨-, hn, hlo, -⟩
          omega
      · rw [if_neg hr]
        simp only [Except.ok.injEq]
        constructor
        · intro h
          exact ⟨trivial, h.symm, by omega, by omega⟩
        · rintro ⟨-, hn, -, -⟩
          exact hn.symm

/-- Lowercasing does not change a decimal digit character. -/
theorem toLower_of_isDigit (c : Char) (h : c.isDigit = true) : c.toLower = c := by
  have h2 : c.val ≤ 57 := by
    simp only [Char.isDigit, Bool.and_eq_true, decide_eq_true_eq] at h
    exact h.2
  have h3 : c.toNat ≤ 57 := h2
  unfold Char.toLower
  rw [if_neg]
  rintro ⟨h65, -⟩
  omega

/-- A decimal digit differs from any character that is not a decimal
digit. -/
theorem ne_of_isDigit (c d : Char) (h : c.isDigit = true) (hd : d.isDigit = false) :
    ¬ c = d := by
  intro he
  rw [he, hd] at h
  cases h

/-- On decimal digits, the hexadecimal digit value is the decimal one. -/
theorem hexVal_digit (c : Char) (h : c.isDigit = true) : hexVal c = digitVal c := by
  simp [hexVal, h, digitVal]

/-- The lowercase form of a decimal digit is never a given letter. -/
theorem toLower_ne_of_isDigit (c d : Char) (h : c.isDigit = true)
    (hd : d.isDigit = false) : ¬ c.toLower = d := by
  rw [toLower_of_isDigit c h]
  exact ne_of_isDigit c d h hd

/-- Scanning a run of decimal digits in base 10 before any dot accumulates
them into the integer part and continues with the rest. -/
theorem scanMantissa_digits (ds : List Char) : ∀ (rest : List Char) (st : MantissaState),
    ds.all Char.isDigit = true → st.sawdot = false →
    scanMantissa 10 (ds ++ rest) st =
      scanMantissa 10 rest
        { st with sawdigits := st.sawdigits || !ds.isEmpty, ip := pushDigits st.ip ds } := by
  induction ds with
  | nil =>
    intro rest st hall hdot
    simp [pushDigits]
  | cons c cs ih =>
    intro rest st hall hdot
    simp only [List.all_cons, Bool.and_eq_true] at hall
    have hnu : ¬ c = '_' := ne_of_isDigit c '_' hall.1 (by decide)
    have hnd : ¬ c = '.' := ne_of_isDigit c '.' hall.1 (by decide)
    have hstep : scanMantissa 10 ((c :: cs) ++ rest) st =
        scanMantissa 10 (cs ++ rest)
          { st with sawdigits := true, ip := st.ip * 10 + hexVal c } := by
      simp only [List.cons_append, scanMantissa, if_neg hnu, if_neg hnd, hall.1,
        Bool.true_or, if_true, hdot, Bool.false_eq_true, if_false]
      rfl
    rw [hstep, ih rest _ hall.2 (by exact hdot)]
    have hip : pushDigits (st.ip * 10 + hexVal c) cs = pushDigits st.ip (c :: cs) := by
      rw [hexVal_digit c hall.1]
      rfl
    rw [hip]
    simp

/-- Scanning a run of decimal digits after the dot accumulates them into the
fraction part and continues with the rest. -/
theorem scanMantissa_frac (fs : List Char) : ∀ (rest : List Char) (st : MantissaState),
    fs.all Char.isDigit = true → st.sawdot = true →
    scanMantissa 10 (fs ++ rest) st =
      scanMantissa 10 rest
        { st with sawdigits := st.sawdigits || !fs.isEmpty,
                  fp := pushDigits st.fp fs, fplen := st.fplen + fs.length } := by
  induction fs with
  | nil =>
    intro rest st hall hdot
    simp [pushDigits]
  | cons c cs ih =>
    intro rest st hall hdot
    simp only [List.all_cons, Bool.and_eq_true] at hall
    have hnu : ¬ c = '_' := ne_of_isDigit c '_' hall.1 (by decide)
    have hnd : ¬ c = '.' := ne_of_isDigit c '.' hall.1 (by decide)
    have hstep : scanMantissa 10 ((c :: cs) ++ rest) st =
        scanMantissa 10 (cs ++ rest)
          { st with sawdigits := true, fp := st.fp * 10 + hexVal c,
                    fplen := st.fplen + 1 } := by
      simp only [List.cons_append, scanMantissa, if_neg hnu, if_neg hnd, hall.1,
        Bool.true_or, if_true, hdot]
      rfl
    rw [hstep, ih rest _ hall.2 (by exact hdot)]
    have hfp : pushDigits (st.fp * 10 + hexVal c) cs = pushDigits st.fp (c :: cs) := by
      rw [hexVal_digit c hall.1]
      rfl
    rw [hfp]
    simp only [List.isEmpty_cons, Bool.not_false, Bool.or_true, List.length_cons]
    have hlen : st.fplen + 1 + cs.length = st.fplen + (cs.length + 1) := by omega
    rw [hlen]
    simp

/-- Integer accumulator form of the exponent digit fold. -/
def pushDigitsInt (a : Int) (cs : List Char) : Int :=
  cs.foldl (fun x c => x * 10 + (digitVal c : Int)) a

/-- The exponent digit loop consumes an all-digit tail completely and
computes its folded value. -/
theorem scanExpDigits_digits (ds : List Char) : ∀ (e : Int) (u : Bool),
    ds.all Char.isDigit = true →
    scanExpDigits ds e u = (pushDigitsInt e ds, u, []) := by
  induction ds with
  | nil =>
    intro e u hall
    rfl
  | cons c cs ih =>
    intro e u hall
    simp only [List.all_cons, Bool.and_eq_true] at hall
    have hstep : scanExpDigits (c :: cs) e u
        = scanExpDigits cs (e * 10 + (digitVal c : Int)) u := by
      simp only [scanExpDigits, hall.1, if_true]
    rw [hstep, ih _ u hall.2]
    rfl

/-- The integer digit fold from a cast natural accumulator is the cast of
the natural fold. -/
theorem pushDigitsInt_natCast (cs : List Char) : ∀ a : Nat,
    pushDigitsInt (a : Int) cs = (pushDigits a cs : Int) := by
  induction cs with
  | nil => intro a; rfl
  | cons c cs ih =>
    intro a
    have h1 : pushDigitsInt (a : Int) (c :: cs)
        = pushDigitsInt ((a : Int) * 10 + (digitVal c : Int)) cs := rfl
    have h2 : ((a : Int) * 10 + (digitVal c : Int)) = ((a * 10 + digitVal c : Nat) : Int) := by
      push_cast
      ring
    rw [h1, h2, ih]
    rfl

/-- The integer digit fold from zero computes the digit value. -/
theorem pushDigitsInt_zero (l : List Char) :
    pushDigitsInt 0 l = (decDigitsVal l : Int) := by
  have h0 : ((0 : Nat) : Int) = (0 : Int) := rfl
  rw [← h0, pushDigitsInt_natCast, pushDigits_zero]

/-- Accumulator form of the digit value in an arbitrary base. -/
theorem pushBase_eq (base : Nat) (cs : List Char) : ∀ a : Nat,
    pushBase base a cs = a * base ^ cs.length + litVal base cs := by
  induction cs with
  | nil =>
    intro a
    simp [pushBase, litVal, Nat.ofDigits_nil]
  | cons c cs ih =>
    intro a
    have hstep : pushBase base a (c :: cs) = pushBase base (a * base + hexVal c) cs := rfl
    rw [hstep, ih]
    have hval : litVal base (c :: cs) = litVal base cs + base ^ cs.length * hexVal c := by
      simp only [litVal, List.map_cons, List.reverse_cons, Nat.ofDigits_append]
      simp [Nat.ofDigits_singleton, List.length_reverse, List.length_map]
    rw [hval]
    simp [List.length_cons]
    ring

/-- The digit value of a list in a base equals the fold from zero. -/
theorem pushBase_zero (base : Nat) (cs : List Char) :
    pushBase base 0 cs = litVal base cs := by
  have := pushBase_eq base cs 0
  simpa using this

/-- A base digit is neither the underscore nor the dot. -/
theorem litDigit_not_special (base : Nat) (c : Char) (h : litDigit base c = true) :
    ¬ c = '_' ∧ ¬ c = '.' := by
  have hu : '_'.isDigit = false := by decide
  have hhu : isHexLetter '_' = false := by decide
  have hd : '.'.isDigit = false := by decide
  have hhd : isHexLetter '.' = false := by decide
  constructor
  · rintro rfl
    simp [litDigit, hu, hhu] at h
  · rintro rfl
    simp [litDigit, hd, hhd] at h

/-- The consumed prefix of a while-split satisfies the predicate. -/
theorem takeWhile_all (p : Char → Bool) (l : List Char) :
    (l.takeWhile p).all p = true := by
  rw [List.all_eq_true]
  intro x hx
  exact List.mem_takeWhile_imp hx

/-- The remainder of a while-split starts with a failing character. -/
theorem dropWhile_head_not (p : Char → Bool) (l : List Char) :
    ∀ c t, l.dropWhile p = c :: t → p c = false := by
  induction l with
  | nil =>
    intro c t h
    cases h
  | cons a l ih =>
    intro c t h
    by_cases hp : p a = true
    · rw [List.dropWhile_cons_of_pos hp] at h
      exact ih c t h
    · rw [List.dropWhile_cons_of_neg hp] at h
      cases h
      exact eq_false_of_ne_true hp

/-- Running the mantissa scanner over a digit group (digits and
underscores) before any dot accumulates the digits into the integer part,
records underscores and digits, and continues with the rest. -/
theorem scanMantissa_group_ip (base : Nat) (w : List Char) :
    ∀ (rest : List Char) (st : MantissaState),
    w.all (litGroupChar base) = true → st.sawdot = false →
    scanMantissa base (w ++ rest) st =
      scanMantissa base rest
        { st with sawdigits := st.sawdigits || w.any (litDigit base),
                  underscores := st.underscores || hasUnderscore w,
                  ip := pushBase base st.ip (litDigits w) } := by
  induction w with
  | nil =>
    intro rest st hall hdot
    simp [pushBase, litDigits, hasUnderscore]
  | cons c cs ih =>
    intro rest st hall hdot
    simp only [List.all_cons, Bool.and_eq_true] at hall
    by_cases hu : c = '_'
    · subst hu
      have hstep : scanMantissa base (('_' :: cs) ++ rest) st
          = scanMantissa base (cs ++ rest) { st with underscores := true } := rfl
      rw [hstep, ih rest _ hall.2 (by exact hdot)]
      have hdu : litDigit base '_' = false := by
        have h1 : '_'.isDigit = false := by decide
        have h2 : isHexLetter '_' = false := by decide
        simp [litDigit, h1, h2]
      simp [litDigits, hasUnderscore, hdu]
    · have hdig : litDigit base c = true := by
        have h := hall.1
        unfold litGroupChar at h
        simp only [Bool.or_eq_true, decide_eq_true_eq] at h
        rcases h with h | h
        · exact h
        · exact absurd h hu
      have hnd : ¬ c = '.' := (litDigit_not_special base c hdig).2
      have hguard : (c.isDigit || (decide (base = 16) && isHexLetter c)) = true := hdig
      have hstep : scanMantissa base ((c :: cs) ++ rest) st
          = scanMantissa base (cs ++ rest)
            { st with sawdigits := true, ip := st.ip * base + hexVal c } := by
        simp only [List.cons_append, scanMantissa, if_neg hu, if_neg hnd, hguard,
          if_true, hdot, Bool.false_eq_true, if_false]
        rfl
      rw [hstep, ih rest _ hall.2 (by exact hdot)]
      have hlit : litDigits (c :: cs) = c :: litDigits cs := by
        simp [litDigits, hu]
      have hip : pushBase base (st.ip * base + hexVal c) (litDigits cs)
          = pushBase base st.ip (litDigits (c :: cs)) := by
        rw [hlit]
        rfl
      rw [hip]
      simp [hasUnderscore, hu, hdig]

/-- Running the mantissa scanner over a digit group after the dot
accumulates the digits into the fraction part and its length, records
underscores and digits, and continues with the rest. -/
theorem scanMantissa_group_fp (base : Nat) (w : List Char) :
    ∀ (rest : List Char) (st : MantissaState),
    w.all (litGroupChar base) = true → st.sawdot = true →
    scanMantissa base (w ++ rest) st =
      scanMantissa base rest
        { st with sawdigits := st.sawdigits || w.any (litDigit base),
                  underscores := st.underscores || hasUnderscore w,
                  fp := pushBase base st.fp (litDigits w),
                  fplen := st.fplen + (litDigits w).length } := by
  induction w with
  | nil =>
    intro rest st hall hdot
    simp [pushBase, litDigits, hasUnderscore]
  | cons c cs ih =>
    intro rest st hall hdot
    simp only [List.all_cons, Bool.and_eq_true] at hall
    by_cases hu : c = '_'
    · subst hu
      have hstep : scanMantissa base (('_' :: cs) ++ rest) st
          = scanMantissa base (cs ++ rest) { st with underscores := true } := rfl
      rw [hstep, ih rest _ hall.2 (by exact hdot)]
      have hdu : litDigit base '_' = false := by
        have h1 : '_'.isDigit = false := by decide
        have h2 : isHexLetter '_' = false := by decide
        simp [litDigit, h1, h2]
      simp [litDigits, hasUnderscore, hdu]
    · have hdig : litDigit base c = true := by
        have h := hall.1
        unfold litGroupChar at h
        simp only [Bool.or_eq_true, decide_eq_true_eq] at h
        rcases h with h | h
        · exact h
        · exact absurd h hu
      have hnd : ¬ c = '.' := (litDigit_not_special base c hdig).2
      have hguard : (c.isDigit || (decide (base = 16) && isHexLetter c)) = true := hdig
      have hstep : scanMantissa base ((c :: cs) ++ rest) st
          = scanMantissa base (cs ++ rest)
            { st with sawdigits := true, fp := st.fp * base + hexVal c,
                      fplen := st.fplen + 1 } := by
        simp only [List.cons_append, scanMantissa, if_neg hu, if_neg hnd, hguard,
          if_true, hdot]
        rfl
      rw [hstep, ih rest _ hall.2 (by exact hdot)]
      have hlit : litDigits (c :: cs) = c :: litDigits cs := by
        simp [litDigits, hu]
      have hfp : pushBase base (st.fp * base + hexVal c) (litDigits cs)
          = pushBase base st.fp (litDigits (c :: cs)) := by
        rw [hlit]
        rfl
      rw [hlit]
      simp only [List.length_cons]
      have hlen : st.fplen + 1 + (litDigits cs).length
          = st.fplen + ((litDigits cs).length + 1) := by omega
      rw [hfp, hlit]
      simp [hasUnderscore, hu, hdig, hlen]

/-- The mantissa scanner stops at a character that is neither a group
character nor the dot. -/
theorem scanMantissa_stop_head (base : Nat) (c : Char) (r : List Char)
    (st : MantissaState) (hg : litGroupChar base c = false) (hcd : ¬ c = '.') :
    scanMantissa base (c :: r) st = (st, c :: r) := by
  have hgu : ¬ c = '_' := by
    intro h
    rw [h] at hg
    simp [litGroupChar] at hg
  have hdig : (c.isDigit || (decide (base = 16) && isHexLetter c)) = false := by
    have : litDigit base c = false := by
      revert hg
      simp [litGroupChar]
      intro h1 h2
      exact h1
    exact this
  simp only [scanMantissa, if_neg hgu, if_neg hcd, hdig, Bool.false_eq_true, if_false]

/-- After a dot was seen, the mantissa scanner stops at every character
that is not a group character, the dot included. -/
theorem scanMantissa_stop_sawdot (base : Nat) (c : Char) (r : List Char)
    (st : MantissaState) (hg : litGroupChar base c = false)
    (hdot : st.sawdot = true) : scanMantissa base (c :: r) st = (st, c :: r) := by
  by_cases hcd : c = '.'
  · subst hcd
    simp only [scanMantissa, if_neg (by decide : ¬ ('.' : Char) = '_'), if_pos rfl,
      hdot, if_true]
  · exact scanMantissa_stop_head base c r st hg hcd

/-- The exponent digit loop consumes exactly the leading digit group,
computing its folded value and recording its underscores. -/
theorem scanExpDigits_eq_split (l : List Char) : ∀ (e : Int) (u : Bool),
    scanExpDigits l e u =
      (pushDigitsInt e (litDigits (l.takeWhile expGroupChar)),
       u || hasUnderscore (l.takeWhile expGroupChar),
       l.dropWhile expGroupChar) := by
  induction l with
  | nil =>
    intro e u
    simp [scanExpDigits, litDigits, pushDigitsInt, hasUnderscore]
  | cons c t ih =>
    intro e u
    by_cases hd : c.isDigit
    · have hne : ¬ c = '_' := ne_of_isDigit c '_' hd (by decide)
      have hg : expGroupChar c = true := by simp [expGroupChar, hd]
      have hstep : scanExpDigits (c :: t) e u
          = scanExpDigits t (e * 10 + (digitVal c : Int)) u := by
        simp only [scanExpDigits, hd, if_true]
      rw [hstep, ih]
      have htw : (c :: t).takeWhile expGroupChar = c :: t.takeWhile expGroupChar :=
        List.takeWhile_cons_of_pos hg
      have hdw : (c :: t).dropWhile expGroupChar = t.dropWhile expGroupChar :=
        List.dropWhile_cons_of_pos hg
      have hlit : litDigits (c :: t.takeWhile expGroupChar)
          = c :: litDigits (t.takeWhile expGroupChar) := by
        simp [litDigits, hne]
      rw [htw, hdw, hlit]
      have hpush : pushDigitsInt (e * 10 + (digitVal c : Int))
            (litDigits (t.takeWhile expGroupChar))
          = pushDigitsInt e (c :: litDigits (t.takeWhile expGroupChar)) := rfl
      rw [hpush]
      simp [hasUnderscore, hne]
    · by_cases hu : c = '_'
      · subst hu
        have hg : expGroupChar '_' = true := by decide
        have hstep : scanExpDigits ('_' :: t) e u = scanExpDigits t e true := rfl
        rw [hstep, ih]
        have htw : ('_' :: t).takeWhile expGroupChar
            = '_' :: t.takeWhile expGroupChar := List.takeWhile_cons_of_pos hg
        have hdw : ('_' :: t).dropWhile expGroupChar = t.dropWhile expGroupChar :=
          List.dropWhile_cons_of_pos hg
        rw [htw, hdw]
        simp [litDigits, hasUnderscore]
      · have hg : expGroupChar c = false := by
          simp [expGroupChar, hd, hu]
        have hstep : scanExpDigits (c :: t) e u = (e, u, c :: t) := by
          simp only [scanExpDigits, hd, Bool.false_eq_true, if_false, if_neg hu]
        rw [hstep]
        have htw : (c :: t).takeWhile expGroupChar = [] :=
          List.takeWhile_cons_of_neg (by simp [hg])
        have hdw : (c :: t).dropWhile expGroupChar = c :: t :=
          List.dropWhile_cons_of_neg (by simp [hg])
        rw [htw, hdw]
        simp [litDigits, pushDigitsInt, hasUnderscore]

/-- Before a dot was seen, the mantissa scanner consumes a dot and records
it. -/
theorem scanMantissa_dot (base : Nat) (t : List Char) (st : MantissaState)
    (hdot : st.sawdot = false) :
    scanMantissa base ('.' :: t) st = scanMantissa base t { st with sawdot := true } := by
  simp only [scanMantissa, if_neg (by decide : ¬ ('.' : Char) = '_'), if_pos rfl,
    if_true, hdot, Bool.false_eq_true, if_false]

/-- The mantissa scanner from the initial state computes exactly the
while-split of its input into digit groups around at most one dot: it
stops at the split's remainder, saw a digit exactly when one of the two
groups contains one, saw an underscore exactly when one of the groups
contains one, and its accumulated value is the value of the two groups. -/
theorem scanMantissa_eq_split (base : Nat) (l : List Char) :
    ∃ st : MantissaState,
      scanMantissa base l {} = (st, (mantSplit base l).2.2) ∧
      st.sawdigits = ((mantSplit base l).1.any (litDigit base)
        || (mantSplit base l).2.1.any (litDigit base)) ∧
      st.underscores = (hasUnderscore (mantSplit base l).1
        || hasUnderscore (mantSplit base l).2.1) ∧
      ((st.ip : ℚ) + (st.fp : ℚ) / (base : ℚ) ^ st.fplen)
        = (litVal base (litDigits (mantSplit base l).1) : ℚ)
          + (litVal base (litDigits (mantSplit base l).2.1) : ℚ)
            / (base : ℚ) ^ (litDigits (mantSplit base l).2.1).length := by
  have hsplit : l.takeWhile (litGroupChar base) ++ l.dropWhile (litGroupChar base) = l :=
    List.takeWhile_append_dropWhile _ _
  have hall := takeWhile_all (litGroupChar base) l
  have hrun := scanMantissa_group_ip base (l.takeWhile (litGroupChar base))
    (l.dropWhile (litGroupChar base)) {} hall rfl
  rw [hsplit] at hrun
  cases hd : l.dropWhile (litGroupChar base) with
  | nil =>
    rw [hd] at hrun
    have hms : mantSplit base l = (l.takeWhile (litGroupChar base), [], []) := by
      simp only [mantSplit, hd]
    rw [hms]
    refine ⟨_, hrun, ?_, ?_, ?_⟩
    · simp
    · simp [hasUnderscore]
    · simp [pushBase_zero, litDigits, litVal]
  | cons c t =>
    have hcg : litGroupChar base c = false := dropWhile_head_not _ l c t hd
    rw [hd] at hrun
    by_cases hcd : c = '.'
    · subst hcd
      rw [scanMantissa_dot base t _ rfl] at hrun
      obtain ⟨st1, hrun1, hdot1, hdig1, husc1, hip1, hfp1, hlen1⟩ :
          ∃ st1 : MantissaState, scanMantissa base l {} = scanMantissa base t st1 ∧
            st1.sawdot = true ∧
            st1.sawdigits = (l.takeWhile (litGroupChar base)).any (litDigit base) ∧
            st1.underscores = hasUnderscore (l.takeWhile (litGroupChar base)) ∧
            st1.ip = pushBase base 0 (litDigits (l.takeWhile (litGroupChar base))) ∧
            st1.fp = 0 ∧ st1.fplen = 0 :=
        ⟨_, hrun, rfl, by simp, by simp, rfl, rfl, rfl⟩
      have hsplit2 : t.takeWhile (litGroupChar base) ++ t.dropWhile (litGroupChar base)
          = t := List.takeWhile_append_dropWhile _ _
      have hall2 := takeWhile_all (litGroupChar base) t
      have hrun2 := scanMantissa_group_fp base (t.takeWhile (litGroupChar base))
        (t.dropWhile (litGroupChar base)) st1 hall2 hdot1
      rw [hsplit2] at hrun2
      rw [hrun2] at hrun1
      have hms : mantSplit base l = (l.takeWhile (litGroupChar base),
          t.takeWhile (litGroupChar base), t.dropWhile (litGroupChar base)) := by
        simp only [mantSplit, hd]
        simp
      cases hd2 : t.dropWhile (litGroupChar base) with
      | nil =>
        rw [hms, hd2]
        rw [hd2] at hrun1
        refine ⟨_, hrun1, ?_, ?_, ?_⟩
        · simp [hdig1]
        · simp [husc1]
        · simp [hip1, hfp1, hlen1, pushBase_zero]
      | cons c2 t2 =>
        have hc2g : litGroupChar base c2 = false := dropWhile_head_not _ t c2 t2 hd2
        rw [hms, hd2]
        rw [hd2] at hrun1
        rw [scanMantissa_stop_sawdot base c2 t2 _ hc2g (by simp [hdot1])] at hrun1
        refine ⟨_, hrun1, ?_, ?_, ?_⟩
        · simp [hdig1]
        · simp [husc1]
        · simp [hip1, hfp1, hlen1, pushBase_zero]
    · rw [scanMantissa_stop_head base c t _ hcg hcd] at hrun
      have hms : mantSplit base l = (l.takeWhile (litGroupChar base), [], c :: t) := by
        simp only [mantSplit, hd, if_neg hcd]
      rw [hms]
      refine ⟨_, hrun, ?_, ?_, ?_⟩
      · simp
      · simp [hasUnderscore]
      · simp [pushBase_zero, litDigits, litVal]

/-- The strconv readFloat model computes exactly the declarative float
literal grammar of the amended claim: on every input the scanner and the
while-split grammar agree, acceptance and value alike. -/
theorem goReadFloat_eq (cs : List Char) : goReadFloat cs = floatLitVal cs := by
  rcases hsd : stripIntSign cs with ⟨neg, tail0⟩
  rcases hbc : goFloatPrefix tail0 with ⟨base, expc, tail⟩
  obtain ⟨st, hscan, hdig, husc, hval⟩ := scanMantissa_eq_split base tail
  rcases hms : mantSplit base tail with ⟨w1, w2, r2⟩
  rw [hms] at hscan hdig husc hval
  simp only [goReadFloat, floatLitVal, hsd, hbc, hms, hscan, hdig, husc]
  by_cases hany : (w1.any (litDigit base) || w2.any (litDigit base)) = true
  · simp only [hany, Bool.not_true, Bool.false_eq_true, if_false]
    rw [hval]
    cases r2 with
    | nil => rfl
    | cons e rest1 =>
      by_cases he : e.toLower = expc
      · simp only [if_pos he]
        rcases hsr2 : stripIntSign rest1 with ⟨es, et⟩
        simp only [hsr2]
        cases et with
        | nil => rfl
        | cons d ds =>
          by_cases hd3 : d.isDigit = true
          · simp only [hd3, Bool.not_true, Bool.false_eq_true, if_false]
            rw [scanExpDigits_eq_split]
            cases hr3 : (d :: ds).dropWhile expGroupChar with
            | nil => simp [pushDigitsInt_zero]
            | cons c3 t3 => simp
          · have hd4 : d.isDigit = false := eq_false_of_ne_true hd3
            simp only [hd4, Bool.not_false, if_true]
      · simp only [if_neg he]
  · have hany2 : (w1.any (litDigit base) || w2.any (litDigit base)) = false :=
      eq_false_of_ne_true hany
    simp only [hany2, Bool.not_false, if_true]

/-- The ParseFloat model accepts exactly the strings of the float
specification, and with the same value: special spellings aside, a string
parses to a finite value exactly when it belongs to the literal grammar
with its exact value below the overflow bound. -/
theorem goParseFloat_iff (s : String) (f : GoFloat) :
    goParseFloat s = Except.ok f ↔ goFloatSpec s = some f := by
  unfold goParseFloat goFloatSpec
  cases hsp : goParseFloatSpecial s.toList with
  | some g => simp
  | none =>
    rw [goReadFloat_eq]
    cases hlit : floatLitVal s.toList with
    | none => simp
    | some q =>
      by_cases hov : ovfl ≤ |q|
      · simp [hov]
      · simp [hov]

/-- The mantissa scanner stops at an exponent letter. -/
theorem scanMantissa_stop_e (r : List Char) (st : MantissaState) :
    scanMantissa 10 ('e' :: r) st = (st, 'e' :: r) := rfl

/-- The mantissa scanner stops at an uppercase exponent letter. -/
theorem scanMantissa_stop_E (r : List Char) (st : MantissaState) :
    scanMantissa 10 ('E' :: r) st = (st, 'E' :: r) := rfl

/-- Running the base-10 mantissa scanner over a standard mantissa from the
initial state consumes exactly the mantissa, records digits with no
underscores, accumulates its exact value, and every consumed character is a
digit or the dot. -/
theorem scanMantissa_of_std (m : List Char) (mq : ℚ) (hm : stdMantissaVal m = some mq) :
    ∀ rest, ∃ st : MantissaState,
      scanMantissa 10 (m ++ rest) {} = scanMantissa 10 rest st ∧
      st.sawdigits = true ∧ st.underscores = false ∧
      ((st.ip : ℚ) + (st.fp : ℚ) / (10 : ℚ) ^ st.fplen) = mq ∧
      (∀ c ∈ m, c.isDigit = true ∨ c = '.') := by
  intro rest
  have hds_all : (m.takeWhile Char.isDigit).all Char.isDigit = true := by
    rw [List.all_eq_true]
    intro x hx
    exact List.mem_takeWhile_imp hx
  have hmsplit : m.takeWhile Char.isDigit ++ m.dropWhile Char.isDigit = m :=
    List.takeWhile_append_dropWhile Char.isDigit m
  cases hrest : m.dropWhile Char.isDigit with
  | nil =>
    have hmds : m = m.takeWhile Char.isDigit := by
      conv_lhs => rw [← hmsplit]
      rw [hrest, List.append_nil]
    have hm2 : (if (m.takeWhile Char.isDigit).isEmpty then none
        else some ((decDigitsVal (m.takeWhile Char.isDigit) : ℚ))) = some mq := by
      rw [← hm]
      simp only [stdMantissaVal, hrest]
    by_cases hde : (m.takeWhile Char.isDigit).isEmpty = true
    · rw [if_pos hde] at hm2
      cases hm2
    · rw [if_neg hde] at hm2
      have hval := Option.some.inj hm2
      refine ⟨{ sawdot := false,
                sawdigits := false || !(m.takeWhile Char.isDigit).isEmpty,
                underscores := false,
                ip := pushDigits 0 (m.takeWhile Char.isDigit),
                fp := 0, fplen := 0 }, ?_, ?_, ?_, ?_, ?_⟩
      · rw [congrArg (fun l => l ++ rest) hmds]
        exact scanMantissa_digits (m.takeWhile Char.isDigit) rest {} hds_all rfl
      · show (false || !(m.takeWhile Char.isDigit).isEmpty) = true
        revert hde
        cases (m.takeWhile Char.isDigit).isEmpty <;> simp
      · rfl
      · show ((pushDigits 0 (m.takeWhile Char.isDigit) : ℚ) + (0 : ℚ) / (10 : ℚ) ^ 0) = mq
        rw [pushDigits_zero, hval]
        simp
      · intro c hc
        rw [hmds] at hc
        exact Or.inl (List.mem_takeWhile_imp hc)
  | cons r0 rtail =>
    have hm2 : (if r0 = '.' then
        (if rtail.all Char.isDigit
            && !((m.takeWhile Char.isDigit).isEmpty && rtail.isEmpty) then
          some ((decDigitsVal (m.takeWhile Char.isDigit) : ℚ)
            + (decDigitsVal rtail : ℚ) / (10 : ℚ) ^ rtail.length)
        else none)
      else none) = some mq := by
      rw [← hm]
      simp only [stdMantissaVal, hrest]
    by_cases hr0 : r0 = '.'
    · subst hr0
      rw [if_pos rfl] at hm2
      by_cases hcond : (rtail.all Char.isDigit
          && !((m.takeWhile Char.isDigit).isEmpty && rtail.isEmpty)) = true
      · rw [if_pos hcond] at hm2
        have hval := Option.some.inj hm2
        simp only [Bool.and_eq_true] at hcond
        have hm3 : m ++ rest
            = m.takeWhile Char.isDigit ++ ('.' :: (rtail ++ rest)) := by
          conv_lhs => rw [← hmsplit, hrest]
          simp [List.append_assoc]
        refine ⟨{ sawdot := true,
                  sawdigits := (false || !(m.takeWhile Char.isDigit).isEmpty)
                    || !rtail.isEmpty,
                  underscores := false,
                  ip := pushDigits 0 (m.takeWhile Char.isDigit),
                  fp := pushDigits 0 rtail,
                  fplen := 0 + rtail.length }, ?_, ?_, ?_, ?_, ?_⟩
        · rw [hm3]
          refine (scanMantissa_digits (m.takeWhile Char.isDigit)
            ('.' :: (rtail ++ rest)) {} hds_all rfl).trans ?_
          exact (scanMantissa_frac rtail rest
            { sawdot := true,
              sawdigits := false || !(m.takeWhile Char.isDigit).isEmpty,
              underscores := false,
              ip := pushDigits 0 (m.takeWhile Char.isDigit),
              fp := 0, fplen := 0 } hcond.1 rfl)
        · show ((false || !(m.takeWhile Char.isDigit).isEmpty) || !rtail.isEmpty) = true
          have hne := hcond.2
          revert hne
          cases (m.takeWhile Char.isDigit).isEmpty <;> cases rtail.isEmpty <;> simp
        · rfl
        · show ((pushDigits 0 (m.takeWhile Char.isDigit) : ℚ)
            + (pushDigits 0 rtail : ℚ) / (10 : ℚ) ^ (0 + rtail.length)) = mq
          rw [pushDigits_zero, pushDigits_zero, Nat.zero_add]
          exact hval
        · intro c hc
          rw [← hmsplit, hrest] at hc
          rcases List.mem_append.mp hc with hc2 | hc2
          · exact Or.inl (List.mem_takeWhile_imp hc2)
          · rcases List.mem_cons.mp hc2 with rfl | hc3
            · exact Or.inr rfl
            · exact Or.inl (List.all_eq_true.mp hcond.1 c hc3)
      · rw [if_neg hcond] at hm2
        cases hm2
    · rw [if_neg hr0] at hm2
      cases hm2

/-- Sign stripping is the identity when the head is not a sign. -/
theorem stripIntSign_other (c : Char) (r : List Char) (h1 : ¬ c = '+') (h2 : ¬ c = '-') :
    stripIntSign (c :: r) = (false, c :: r) := by
  unfold stripIntSign
  split
  · next heq => cases heq; exact absurd rfl h1
  · next heq => cases heq; exact absurd rfl h2
  · rfl

/-- A nonempty standard mantissa starts with a digit or a dot. -/
theorem stdMantissa_head (m : List Char) (mq : ℚ) (hm : stdMantissaVal m = some mq) :
    ∃ mh m2, m = mh :: m2 ∧ (mh.isDigit = true ∨ mh = '.') := by
  obtain ⟨st, -, -, -, -, hchars⟩ := scanMantissa_of_std m mq hm []
  cases hme : m with
  | nil =>
    rw [hme] at hm
    cases hm
  | cons mh m2 =>
    refine ⟨mh, m2, rfl, ?_⟩
    exact hchars mh (hme ▸ List.mem_cons_self mh m2)

/-- A head character that is a digit or a dot rules out the special Inf,
Infinity and NaN spellings. -/
theorem map_toLower_ne_special (mh : Char) (m2 : List Char)
    (hc : mh.isDigit = true ∨ mh = '.') (w : List Char) (hw : w = "inf".toList ∨
      w = "infinity".toList ∨ w = "nan".toList) :
    ¬ (mh :: m2).map Char.toLower = w := by
  intro heq
  have hhead : mh.toLower = w.headD 'z' := by
    rw [← heq]
    rfl
  have hwhead : w.headD 'z' = 'i' ∨ w.headD 'z' = 'n' := by
    rcases hw with rfl | rfl | rfl
    · exact Or.inl rfl
    · exact Or.inl rfl
    · exact Or.inr rfl
  rcases hc with hd | rfl
  · rw [toLower_of_isDigit mh hd] at hhead
    rcases hwhead with hi | hn
    · rw [hi] at hhead
      exact ne_of_isDigit mh 'i' hd (by decide) hhead
    · rw [hn] at hhead
      exact ne_of_isDigit mh 'n' hd (by decide) hhead
  · rcases hwhead with hi | hn
    · rw [hi] at hhead
      cases hhead
    · rw [hn] at hhead
      cases hhead

/-- A string in standard decimal or exponential notation is never parsed as
one of the special float values. -/
theorem goParseFloatSpecial_none_of_std (s : String) (q : ℚ)
    (hstd : stdDecimalExpVal s = some q) : goParseFloatSpecial s.toList = none := by
  rcases hsd : stripIntSign s.toList with ⟨neg, tail⟩
  simp only [stdDecimalExpVal, hsd] at hstd
  cases hm : stdMantissaVal (tail.takeWhile fun c => !(c = 'e' || c = 'E')) with
  | none => rw [hm] at hstd; cases hstd
  | some mq =>
    obtain ⟨mh, m2, hm2, hcls⟩ := stdMantissa_head _ mq hm
    have htail : tail = mh :: (m2 ++ tail.dropWhile fun c => !(c = 'e' || c = 'E')) := by
      conv_lhs => rw [← List.takeWhile_append_dropWhile
        (fun c => !(c = 'e' || c = 'E')) tail]
      rw [hm2]
      rfl
    cases hcs : s.toList with
    | nil => rfl
    | cons c t =>
      rw [hcs] at hsd
      by_cases hc1 : c = '+'
      · subst hc1
        have ht : t = tail := by
          have hsd2 : ((false, t) : Bool × List Char) = (neg, tail) := hsd
          exact congrArg Prod.snd hsd2
        have ht2 : t = mh :: (m2 ++ tail.dropWhile fun c => !(c = 'e' || c = 'E')) :=
          ht.trans htail
        simp only [goParseFloatSpecial, ht2]
        rw [if_pos (by decide), if_neg]
        simp only [Bool.or_eq_true, decide_eq_true_eq]
        rintro (hx | hx)
        · exact map_toLower_ne_special mh _ hcls _ (Or.inl rfl) hx
        · exact map_toLower_ne_special mh _ hcls _ (Or.inr (Or.inl rfl)) hx
      · by_cases hc2 : c = '-'
        · subst hc2
          have ht : t = tail := by
            have hsd2 : ((true, t) : Bool × List Char) = (neg, tail) := hsd
            exact congrArg Prod.snd hsd2
          have ht2 : t = mh :: (m2 ++ tail.dropWhile fun c => !(c = 'e' || c = 'E')) :=
            ht.trans htail
          simp only [goParseFloatSpecial, ht2]
          rw [if_pos (by decide), if_neg]
          simp only [Bool.or_eq_true, decide_eq_true_eq]
          rintro (hx | hx)
          · exact map_toLower_ne_special mh _ hcls _ (Or.inl rfl) hx
          · exact map_toLower_ne_special mh _ hcls _ (Or.inr (Or.inl rfl)) hx
        · have ht : (c :: t : List Char) = tail := by
            have hsd2 : ((false, c :: t) : Bool × List Char) = (neg, tail) :=
              (stripIntSign_other c t hc1 hc2).symm.trans hsd
            exact congrArg Prod.snd hsd2
          have hmh : c = mh := by
            rw [htail] at ht
            exact (List.cons.injEq _ _ _ _ ▸ ht).1
          subst hmh
          simp only [goParseFloatSpecial]
          rw [if_neg (by simp [hc1, hc2]), if_neg, if_neg]
          · have htt : (c :: t : List Char)
                = c :: (m2 ++ tail.dropWhile fun ch => !(ch = 'e' || ch = 'E')) :=
              ht.trans htail
            have htl : t = m2 ++ tail.dropWhile fun ch => !(ch = 'e' || ch = 'E') :=
              (List.cons.injEq _ _ _ _ ▸ htt).2
            rw [htl]
            exact map_toLower_ne_special c _ hcls _ (Or.inr (Or.inr rfl))
          · have htl : t = m2 ++ tail.dropWhile fun ch => !(ch = 'e' || ch = 'E') :=
              (List.cons.injEq _ _ _ _ ▸ (ht.trans htail)).2
            rw [htl]
            simp only [Bool.or_eq_true, decide_eq_true_eq]
            rintro (hx | hx)
            · exact map_toLower_ne_special c _ hcls _ (Or.inl rfl) hx
            · exact map_toLower_ne_special c _ hcls _ (Or.inr (Or.inl rfl)) hx

/-- The fuelled binary power computes the monoid power whenever the fuel
covers the exponent. -/
theorem ratPowAux_eq (fuel : Nat) : ∀ (b : ℚ) (e : Nat), e ≤ fuel →
    ratPowAux fuel b e = b ^ e := by
  induction fuel with
  | zero =>
    intro b e he
    have he0 : e = 0 := Nat.le_zero.mp he
    subst he0
    simp [ratPowAux]
  | succ n ih =>
    intro b e he
    by_cases h0 : e = 0
    · subst h0
      simp [ratPowAux]
    · have hdiv : e / 2 ≤ n := by omega
      have hrec := ih (b * b) (e / 2) hdiv
      have hbb : (b * b) ^ (e / 2) = b ^ (2 * (e / 2)) := by
        rw [pow_mul, pow_two]
      by_cases hp : e % 2 = 1
      · have he2 : 2 * (e / 2) + 1 = e := by omega
        simp only [ratPowAux, if_neg h0, if_pos hp, hrec, hbb]
        have hstep : b * b ^ (2 * (e / 2)) = b ^ (2 * (e / 2) + 1) := by
          rw [pow_succ]
          ring
        rw [hstep, he2]
      · have he2 : 2 * (e / 2) = e := by omega
        simp only [ratPowAux, if_neg h0, if_neg hp, hrec, hbb, he2]

/-- Binary natural power equals the monoid power. -/
theorem ratPowNat_eq (b : ℚ) (e : Nat) : ratPowNat b e = b ^ e :=
  ratPowAux_eq e b e (Nat.le_refl e)

/-- The integer power in terms of monoid powers. -/
theorem ratPowInt_def (b : ℚ) (e : Int) :
    ratPowInt b e = if 0 ≤ e then b ^ e.toNat else 1 / b ^ (-e).toNat := by
  unfold ratPowInt
  rw [ratPowNat_eq, ratPowNat_eq]

/-- Integer power at exponent zero is one. -/
theorem ratPowInt_zero (b : ℚ) : ratPowInt b 0 = 1 := by
  simp [ratPowInt_def]

/-- A prefix that is not a hexadecimal 0x prefix selects the decimal base
and exponent letter. -/
theorem goFloatPrefix_decimal (tail : List Char)
    (hx : ∀ x c2 r2, tail = '0' :: x :: c2 :: r2 → ¬ x.toLower = 'x') :
    goFloatPrefix tail = ((10 : Nat), 'e', tail) := by
  unfold goFloatPrefix
  split
  · next x c2 r2 => rw [if_neg (hx x c2 r2 rfl)]
  · rfl

/-- The readFloat model accepts every string in standard decimal or
exponential notation and computes the exact value of the literal. -/
theorem goReadFloat_of_std (s : String) (q : ℚ)
    (hstd : stdDecimalExpVal s = some q) :
    goReadFloat s.toList = some q := by
  rcases hsd : stripIntSign s.toList with ⟨neg, tail⟩
  simp only [stdDecimalExpVal, hsd] at hstd
  cases hm : stdMantissaVal (tail.takeWhile fun c => !(c = 'e' || c = 'E')) with
  | none => rw [hm] at hstd; cases hstd
  | some mq =>
    cases he : stdExpVal (tail.dropWhile fun c => !(c = 'e' || c = 'E')) with
    | none => rw [hm, he] at hstd; cases hstd
    | some ev =>
      rw [hm, he] at hstd
      have hq := Option.some.inj hstd
      obtain ⟨st, hscan, hsdig, husc, hval, hchars⟩ :=
        scanMantissa_of_std _ mq hm (tail.dropWhile fun c => !(c = 'e' || c = 'E'))
      have htail : tail = (tail.takeWhile fun c => !(c = 'e' || c = 'E'))
          ++ (tail.dropWhile fun c => !(c = 'e' || c = 'E')) :=
        (List.takeWhile_append_dropWhile _ _).symm
      obtain ⟨mh, m2, hm2, hcls⟩ := stdMantissa_head _ mq hm
      have hxfact : ∀ x c2 r2, tail = '0' :: x :: c2 :: r2 → ¬ x.toLower = 'x' := by
        intro x c2 r2 heq
        cases m2 with
        | nil =>
          have h1 := htail
          rw [hm2] at h1
          simp only [List.cons_append, List.nil_append] at h1
          have h2 := h1.symm.trans heq
          have hb : (tail.dropWhile fun c => !(c = 'e' || c = 'E'))
              = x :: c2 :: r2 := by
            injection h2 with ha hb
          rw [hb] at he
          by_cases hxor : x = 'e' ∨ x = 'E'
          · rcases hxor with rfl | rfl <;> decide
          · have hfalse : (decide (x = 'e') || decide (x = 'E')) = false := by
              simp only [not_or] at hxor
              simp [hxor.1, hxor.2]
            simp only [stdExpVal, hfalse, Bool.false_eq_true, if_false] at he
            cases he
        | cons x2 m3 =>
          have h1 := htail
          rw [hm2] at h1
          simp only [List.cons_append] at h1
          have h2 := h1.symm.trans heq
          have hb : x2 = x := by
            injection h2 with ha h3
            injection h3 with hb hc
          subst hb
          have hmem : x2 ∈ tail.takeWhile fun c => !(c = 'e' || c = 'E') := by
            rw [hm2]
            exact List.mem_cons_of_mem mh (List.mem_cons_self x2 m3)
          rcases hchars x2 hmem with hd | rfl
          · exact toLower_ne_of_isDigit x2 'x' hd (by decide)
          · decide
      have hbc := goFloatPrefix_decimal tail hxfact
      simp only [goReadFloat, hsd, hbc]
      rw [htail, hscan]
      cases hE : tail.dropWhile fun c => !(c = 'e' || c = 'E') with
      | nil =>
        rw [hE] at he
        have hev : ev = 0 := (Option.some.inj he).symm
        subst hev
        simp only [scanMantissa, hsdig, Bool.not_true, Bool.false_eq_true, if_false]
        rw [if_neg (by decide)]
        simp only [checkUnderscores, husc, Bool.false_and, Bool.false_eq_true, if_false]
        rw [← hq]
        have hcast : ((10 : Nat) : ℚ) = (10 : ℚ) := by norm_num
        rw [hcast, hval]
        cases neg <;> simp [ratPowInt_zero]
      | cons ec r =>
        rw [hE] at he
        rcases hsr : stripIntSign r with ⟨esign, eds⟩
        have hec : ec = 'e' ∨ ec = 'E' := by
          by_cases hxor : ec = 'e' ∨ ec = 'E'
          · exact hxor
          · exfalso
            have hfalse : (decide (ec = 'e') || decide (ec = 'E')) = false := by
              simp only [not_or] at hxor
              simp [hxor.1, hxor.2]
            simp only [stdExpVal, hfalse, Bool.false_eq_true, if_false] at he
            cases he
        have he2 : (if (!eds.isEmpty && eds.all Char.isDigit) = true then
            some (if esign then -(decDigitsVal eds : Int) else (decDigitsVal eds : Int))
            else none) = some ev := by
          rw [← he]
          have hcond : (decide (ec = 'e') || decide (ec = 'E')) = true := by
            rcases hec with rfl | rfl <;> decide
          simp only [stdExpVal, hcond, if_true, hsr]
        by_cases hdig : (!eds.isEmpty && eds.all Char.isDigit) = true
        · rw [if_pos hdig] at he2
          have hev := Option.some.inj he2
          simp only [Bool.and_eq_true, Bool.not_eq_eq_eq_not, Bool.not_true] at hdig
          cases heds : eds with
          | nil =>
            rw [heds] at hdig
            simp at hdig
          | cons d dt =>
            have hdd : d.isDigit = true := by
              rw [heds] at hdig
              simp only [List.all_cons, Bool.and_eq_true] at hdig
              exact hdig.2.1
            have hstop : scanMantissa 10 (ec :: r) st = (st, ec :: r) := by
              rcases hec with rfl | rfl
              · exact scanMantissa_stop_e r st
              · exact scanMantissa_stop_E r st
            rw [hstop]
            simp only [hsdig, Bool.not_true, Bool.false_eq_true, if_false]
            have hlow : ec.toLower = 'e' := by
              rcases hec with rfl | rfl <;> decide
            rw [if_pos hlow]
            simp only [hsr, heds]
            rw [if_neg (by simp [hdd])]
            have hexp := scanExpDigits_digits (d :: dt) 0 false (by
              rw [heds] at hdig
              exact hdig.2)
            rw [hexp]
            simp only [checkUnderscores, husc, Bool.or_false, Bool.false_and,
              Bool.false_eq_true, if_false]
            rw [← hq]
            have hpush : pushDigitsInt 0 (d :: dt) = (decDigitsVal (d :: dt) : Int) := by
              have h0 : ((0 : Nat) : Int) = (0 : Int) := rfl
              rw [← h0, pushDigitsInt_natCast, pushDigits_zero]
            have hevval : ev = if esign = true then -(decDigitsVal (d :: dt) : Int)
                else (decDigitsVal (d :: dt) : Int) := by
              rw [← hev, heds]
            have hcast : ((10 : Nat) : ℚ) = (10 : ℚ) := by norm_num
            rw [hpush, hcast, hval, hevval]
            have hexpbase : expBase 10 = (10 : ℚ) := by decide
            rw [hexpbase]
            cases neg <;> cases esign <;> simp [neg_one_mul, one_mul, neg_mul, mul_neg]
        · rw [if_neg hdig] at he2
          cases he2

/-- The ParseFloat model accepts a standard decimal or exponential string in
binary64 range with its exact literal value. -/
theorem goParseFloat_of_std (s : String) (q : ℚ) (hstd : stdDecimalExpVal s = some q)
    (hovfl : |q| < ovfl) : goParseFloat s = Except.ok (GoFloat.finite q) := by
  have hspec := goParseFloatSpecial_none_of_std s q hstd
  have hread := goReadFloat_of_std s q hstd
  simp only [goParseFloat, hspec, hread]
  rw [if_neg (not_le.mpr hovfl)]

set_option maxRecDepth 10000 in
/-- C5 (amended): parameter conversion follows strconv.  The String type is
the identity (including the empty string).  The Integer type succeeds with
the signed 64-bit value exactly when the input is an optional sign followed
by decimal digits whose value is in the 64-bit range, and any failure
message names the raw value.  The Float type succeeds exactly on the
strings of the float specification — a special spelling (case-insensitive
NaN, possibly signed case-insensitive Inf or Infinity) or a well-formed
decimal or hexadecimal float literal with legally placed underscore
separators whose exact value is below the binary64 overflow bound — with
the exact literal value (binary64 rounding abstracted); it fails on every
other string, ill-formed or overflowing alike, and float failure messages
also name the raw value.  The concrete conjuncts exhibit the forms beyond
the original claim's standard decimal and exponential notation, and an
overflow rejection. -/
theorem convertParamValue_semantics (s : String) :
    convertParamValue s paramTypeString = Except.ok (Value.vstr s) ∧
    (∀ n : Int, convertParamValue s paramTypeInt = Except.ok (Value.vint n) ↔
      (intWellFormed s = true ∧ n = intSpecVal s ∧ -(2 ^ 63) ≤ n ∧ n < 2 ^ 63)) ∧
    (∀ emsg, convertParamValue s paramTypeInt = Except.error emsg →
      ∃ a b, emsg = a ++ (s ++ b)) ∧
    ((∃ n : Int, convertParamValue s paramTypeInt = Except.ok (Value.vint n)) ∨
      (∃ emsg, convertParamValue s paramTypeInt = Except.error emsg)) ∧
    (∀ f : GoFloat, convertParamValue s paramTypeFloat = Except.ok (Value.vfloat f) ↔
      goFloatSpec s = some f) ∧
    (goFloatSpec s = none →
      ∃ emsg, convertParamValue s paramTypeFloat = Except.error emsg) ∧
    (∀ q : ℚ, stdDecimalExpVal s = some q → |q| < ovfl →
      convertParamValue s paramTypeFloat = Except.ok (Value.vfloat (GoFloat.finite q))) ∧
    (∀ emsg, convertParamValue s paramTypeFloat = Except.error emsg →
      ∃ a b, emsg = a ++ (s ++ b)) ∧
    ((∃ f, convertParamValue s paramTypeFloat = Except.ok (Value.vfloat f)) ∨
      (∃ emsg, convertParamValue s paramTypeFloat = Except.error emsg)) ∧
    convertParamValue "NaN" paramTypeFloat = Except.ok (Value.vfloat GoFloat.nan) ∧
    convertParamValue "-Inf" paramTypeFloat = Except.ok (Value.vfloat (GoFloat.inf true)) ∧
    convertParamValue "0x1p-2" paramTypeFloat
      = Except.ok (Value.vfloat (GoFloat.finite (1 / 4))) ∧
    convertParamValue "1_0.5" paramTypeFloat
      = Except.ok (Value.vfloat (GoFloat.finite (21 / 2))) ∧
    convertParamValue "2e308" paramTypeFloat = Except.error
      "invalid float value \"2e308\": strconv.ParseFloat: parsing \"2e308\": value out of range"
    := by
  have hint : convertParamValue s paramTypeInt = (match goParseInt64 s with
      | Except.error e =>
        Except.error ("invalid integer value " ++ goQuote s ++ ": " ++ e)
      | Except.ok n => Except.ok (Value.vint n)) := rfl
  have hfloat : convertParamValue s paramTypeFloat = (match goParseFloat s with
      | Except.error e =>
        Except.error ("invalid float value " ++ goQuote s ++ ": " ++ e)
      | Except.ok f => Except.ok (Value.vfloat f)) := rfl
  refine ⟨rfl, ?_, ?_, ?_, ?_, ?_, ?_, ?_, ?_, rfl, rfl, by decide, by decide, by decide⟩
  · intro n
    rw [hint]
    cases hi : goParseInt64 s with
    | error e =>
      constructor
      · intro h
        cases h
      · intro hr
        exact absurd ((goParseInt64_ok s n).mpr hr) (by rw [hi]; simp)
    | ok n0 =>
      constructor
      · intro h
        have hn : n0 = n := by
          simpa using h
        subst hn
        exact (goParseInt64_ok s n0).mp hi
      · intro hr
        have h2 := (goParseInt64_ok s n).mpr hr
        rw [hi] at h2
        have hn : n0 = n := by
          simpa using h2
        rw [hn]
  · intro emsg h
    rw [hint] at h
    cases hi : goParseInt64 s with
    | ok n0 => rw [hi] at h; cases h
    | error e =>
      rw [hi] at h
      have hmsg : emsg = "invalid integer value " ++ goQuote s ++ ": " ++ e := by
        simpa using h.symm
      refine ⟨"invalid integer value " ++ "\"", "\"" ++ (": " ++ e), ?_⟩
      rw [hmsg]
      simp only [goQuote, String.append_assoc]
  · cases hi : goParseInt64 s with
    | ok n0 => exact Or.inl ⟨n0, by rw [hint, hi]⟩
    | error e => exact Or.inr ⟨_, by rw [hint, hi]⟩
  · intro f
    rw [hfloat]
    cases hp : goParseFloat s with
    | error e =>
      constructor
      · intro h
        cases h
      · intro hr
        exact absurd ((goParseFloat_iff s f).mpr hr) (by rw [hp]; simp)
    | ok f0 =>
      constructor
      · intro h
        have hf : f0 = f := by
          simpa using h
        subst hf
        exact (goParseFloat_iff s f0).mp hp
      · intro hr
        have h2 := (goParseFloat_iff s f).mpr hr
        rw [hp] at h2
        have hf : f0 = f := by
          simpa using h2
        rw [hf]
  · intro hnone
    cases hp : goParseFloat s with
    | ok f0 =>
      exfalso
      have h2 := (goParseFloat_iff s f0).mp hp
      rw [hnone] at h2
      cases h2
    | error e =>
      exact ⟨_, by rw [hfloat, hp]⟩
  · intro q hq hov
    rw [hfloat, goParseFloat_of_std s q hq hov]
  · intro emsg h
    rw [hfloat] at h
    cases hi : goParseFloat s with
    | ok f => rw [hi] at h; cases h
    | error e =>
      rw [hi] at h
      have hmsg : emsg = "invalid float value " ++ goQuote s ++ ": " ++ e := by
        simpa using h.symm
      refine ⟨"invalid float value " ++ "\"", "\"" ++ (": " ++ e), ?_⟩
      rw [hmsg]
      simp only [goQuote, String.append_assoc]
  · cases hi : goParseFloat s with
    | ok f => exact Or.inl ⟨f, by rw [hfloat, hi]⟩
    | error e => exact Or.inr ⟨_, by rw [hfloat, hi]⟩

/-- C5 counterexample: the claim as stated says conversion with the Float
type fails for every string outside standard decimal and exponential
notation, but the code (strconv.ParseFloat) accepts the special value NaN,
which is in neither notation, and succeeds. -/
theorem convertParamValue_float_counterexample :
    stdDecimalExp "NaN" = false ∧
    convertParamValue "NaN" paramTypeFloat = Except.ok (Value.vfloat GoFloat.nan) :=
  ⟨rfl, rfl⟩

set_option maxRecDepth 40000 in
/-- C5 witness: the amended statement applied at concrete inputs: the
identity on a string value; a negative integer accepted with its value; the
decimal string 7.5 accepted, through the grammar characterisation, with
value fifteen halves; and a non-numeric string rejected by the grammar and
therefore by the conversion. -/
theorem convertParamValue_semantics_witness :
    convertParamValue "hello" paramTypeString = Except.ok (Value.vstr "hello") ∧
    convertParamValue "-42" paramTypeInt = Except.ok (Value.vint (-42)) ∧
    convertParamValue "7.5" paramTypeFloat
      = Except.ok (Value.vfloat (GoFloat.finite (15 / 2))) ∧
    (∃ emsg, convertParamValue "abc" paramTypeFloat = Except.error emsg) :=
  ⟨(convertParamValue_semantics "hello").1,
   ((convertParamValue_semantics "-42").2.1 (-42)).mpr
     ⟨by decide, by decide, by decide, by decide⟩,
   ((convertParamValue_semantics "7.5").2.2.2.2.1 (GoFloat.finite (15 / 2))).mpr
     (by decide),
   (convertParamValue_semantics "abc").2.2.2.2.2.1 (by decide)⟩
